import Mathlib

/-!
# SysMonTray: sampling pipeline and gauge layout

A shallow embedding of `src/SysMonTray.cpp`.

Conventions of the embedding.

* A C++ `double` is a rational number (`ℚ`).  In `TakeSample`,
  `ReadRamUsedPercent` and `DrawGauge` the arithmetic is exact: the literals
  `0.4`, `0.6`, `100.0`, `360.0` are the rationals `2/5`, `3/5`, `100`, `360`,
  and `+ * /` are the field operations.  `TakeSampleDouble` and
  `ReadRamUsedPercentDouble` are the same functions with every operation
  rounded to the nearest binary64 value (`roundDouble`), as the hardware does;
  the bound on the smoothed value, which rounding decides, is settled on these.
  Infinities and NaN are outside both models.
* A C++ `int` is a mathematical integer (`ℤ`); `/` on `int` is division
  truncating toward zero (`Int.tdiv`).  `paintLocals_fit_int32` below shows
  that, for a client area whose width and height are non-negative `int`s, every
  intermediate value of the layout stays in the 32-bit range, so that no
  wrap-around is involved.
* A `ULONGLONG` is a natural number and its subtraction wraps modulo `2^64`.
* Results of operating-system calls made during one timer tick are collected
  in an `OsReply` value that is passed to the function making the call.
-/

namespace SysMonTray

/-! ## Data model -/

/-- The two fields of `MEMORYSTATUSEX` read by `ReadRamUsedPercent`. -/
structure MEMORYSTATUSEX where
  ullTotalPhys : ℕ
  ullAvailPhys : ℕ
  deriving DecidableEq

/-- What the operating system answers during one call of `TakeSample`.

* `counterValue`: `some v` when `PdhGetFormattedCounterValue` returns
  `ERROR_SUCCESS` with `v.doubleValue = v`, `none` on any other status;
* `memoryStatus`: `some ms` when `GlobalMemoryStatusEx` succeeds, `none`
  when it fails. -/
structure OsReply where
  counterValue : Option ℚ
  memoryStatus : Option MEMORYSTATUSEX
  deriving DecidableEq

/-- The globals touched by sampling: the latest values, the carried EMA, and
whether the two PDH handles are non-null. -/
structure Globals where
  g_cpu : ℚ
  g_ram : ℚ
  g_cpuEMA : ℚ
  g_cpuQuery : Bool
  g_cpuTotal : Bool
  deriving DecidableEq

/-- The values the globals are initialised with at program start
(`g_cpu = g_ram = g_cpuEMA = -1.0`), for a given outcome of `InitCpuPdh`
on the two PDH handles. -/
def Globals.fresh (query counter : Bool) : Globals :=
  { g_cpu := -1.0, g_ram := -1.0, g_cpuEMA := -1.0,
    g_cpuQuery := query, g_cpuTotal := counter }

/-! ## Metrics -/

/-- `ReadCpuUsage`: `-1.0` when a handle is null or the formatted read fails,
the counter's value otherwise. -/
def ReadCpuUsage (g : Globals) (os : OsReply) : ℚ :=
  if !g.g_cpuQuery || !g.g_cpuTotal then -1.0
  else
    match os.counterValue with
    | some v => v
    | none => -1.0

/-- `ReadRamUsedPercent`: used physical memory as a percentage of the total,
`-1.0` when `GlobalMemoryStatusEx` fails.  The subtraction is the unsigned
64-bit one.  (With `ullTotalPhys = 0` the C++ quotient is not a finite double;
the rational quotient is then meaningless.) -/
def ReadRamUsedPercent (os : OsReply) : ℚ :=
  match os.memoryStatus with
  | some ms =>
    let used : ℚ := ((((ms.ullTotalPhys : ℤ) - (ms.ullAvailPhys : ℤ)) % 2 ^ 64 : ℤ) : ℚ)
    (used / (ms.ullTotalPhys : ℚ)) * 100.0
  | none => -1.0

/-! ## Sampling -/

/-- `TakeSample`: one timer tick.  (`InvalidateRect` only requests a repaint.) -/
def TakeSample (g : Globals) (os : OsReply) : Globals :=
  let rawCpu := ReadCpuUsage g os
  let ema := if g.g_cpuEMA < 0 then rawCpu else 0.4 * rawCpu + 0.6 * g.g_cpuEMA
  { g with g_cpuEMA := ema, g_cpu := ema, g_ram := ReadRamUsedPercent os }

/-- The globals after a sequence of `WM_TIMER` ticks, oldest reply first. -/
def runTicks (g : Globals) : List OsReply → Globals
  | [] => g
  | os :: rest => runTicks (TakeSample g os) rest

/-- The value of `g_cpu` published by each tick of a sequence. -/
def cpuTrace (g : Globals) : List OsReply → List ℚ
  | [] => []
  | os :: rest => (TakeSample g os).g_cpu :: cpuTrace (TakeSample g os) rest

/-- The raw CPU reading (`rawCpu`) of each tick of a sequence. -/
def rawTrace (g : Globals) : List OsReply → List ℚ
  | [] => []
  | os :: rest => ReadCpuUsage g os :: rawTrace (TakeSample g os) rest

/-- A tick on which the counter reads `v` and the memory query reports `ms`. -/
def cpuTick (v : ℚ) (ms : Option MEMORYSTATUSEX) : OsReply :=
  { counterValue := some v, memoryStatus := ms }

/-- A tick on which the formatted counter read fails. -/
def failedCpuTick (ms : Option MEMORYSTATUSEX) : OsReply :=
  { counterValue := none, memoryStatus := ms }

/-- Rounding to two decimals, half away from zero on ties; used only to
present values of the trace. -/
def round2 (q : ℚ) : ℚ := (round (q * 100) : ℤ) / 100

/-- The smoothing recurrence of `TakeSample` on the pair (carried EMA, raw
reading), stated on numbers alone; `TakeSample_ema` relates it to the code. -/
def emaStep (ema rawCpu : ℚ) : ℚ :=
  if ema < 0 then rawCpu else 0.4 * rawCpu + 0.6 * ema

/-- Outputs of iterating `emaStep` over a list of raw readings. -/
def emaTrace (ema : ℚ) : List ℚ → List ℚ
  | [] => []
  | r :: rest => emaStep ema r :: emaTrace (emaStep ema r) rest

/-- Smallest element of a list of readings (`0` for the empty list). -/
def seqMin : List ℚ → ℚ
  | [] => 0
  | x :: xs => xs.foldl min x

/-- Largest element of a list of readings (`0` for the empty list). -/
def seqMax : List ℚ → ℚ
  | [] => 0
  | x :: xs => xs.foldl max x

/-! ## Drawing -/

/-- Conversion `(int)d` of a double to `int`: truncation toward zero. -/
def toInt (d : ℚ) : ℤ := Int.tdiv d.num d.den

/-- The arguments of one call of `DrawArc` (colour left out). -/
structure ArcCall where
  cx : ℤ
  cy : ℤ
  radius : ℤ
  startDeg : ℚ
  sweepDeg : ℚ
  thickness : ℤ
  deriving DecidableEq

/-- A `RECT`. -/
structure RECT where
  left : ℤ
  top : ℤ
  right : ℤ
  bottom : ℤ
  deriving DecidableEq

/-- Nearest integer, ties to the even neighbour. -/
def roundHalfEven (q : ℚ) : ℤ :=
  let f := ⌊q⌋
  let r := q - f
  if r < 1 / 2 then f
  else if 1 / 2 < r then f + 1
  else if f % 2 = 0 then f else f + 1

/-- The characters `printf` writes for `%.1f`: optional sign, the integer
digits, a point and one decimal, the value being rounded to one decimal.  A
value exactly halfway between two decimals goes to the even one, as the
current C runtime prints it (older runtimes round it away from zero). -/
def formatF1 (value : ℚ) : List Char :=
  let t : ℕ := (roundHalfEven (|value| * 10)).toNat
  let sign : List Char := if value < 0 then ['-'] else []
  sign ++ Nat.toDigits 10 (t / 10) ++ ['.'] ++ Nat.toDigits 10 (t % 10)

/-- `StringCchPrintfW(vbuf, 64, L"%.1f%%", value)`: the formatted number
followed by a percent sign, cut to the 63 characters the buffer holds. -/
def printfPercent (value : ℚ) : String :=
  String.mk ((formatF1 value ++ ['%']).take 63)

/-- The digit a decimal digit character stands for. -/
def digitValue (c : Char) : ℕ := c.toNat - 48

/-- The number a string of decimal digits denotes. -/
def decimalValue (cs : List Char) : ℕ :=
  cs.foldl (fun acc c => 10 * acc + digitValue c) 0

/-- What one call of `DrawGauge` draws: the card, the two arcs, the position
of the title and the readout text. -/
structure GaugeDrawing where
  card : RECT
  background : ArcCall
  foreground : ArcCall
  titleX : ℤ
  titleY : ℤ
  vbuf : String
  deriving DecidableEq

/-- `DrawGauge(hdc, x, y, size, title, value, accent)`. -/
def DrawGauge (x y size : ℤ) (value : ℚ) : GaugeDrawing :=
  let card : RECT := { left := x, top := y, right := x + size, bottom := y + size }
  let cx := x + Int.tdiv size 2
  let cy := y + Int.tdiv size 2 + 8
  let radius := Int.tdiv size 2 - 26
  let thickness := toInt ((size : ℚ) * 0.12)
  let thickness := if thickness < 12 then 12 else thickness
  let v := value
  let v := if v < 0 then 0 else v
  let v := if v > 100 then 100 else v
  { card := card,
    background :=
      { cx := cx, cy := cy, radius := radius, startDeg := -90, sweepDeg := 360,
        thickness := thickness },
    foreground :=
      { cx := cx, cy := cy, radius := radius, startDeg := -90,
        sweepDeg := 360.0 * (v / 100.0), thickness := thickness },
    titleX := x + 16,
    titleY := y + 12,
    vbuf := if value < 0 then "N/A" else printfPercent value }

/-- The test `value < 0` by which `DrawGauge` shows a value as not available;
`TakeSample` applies the same test to `g_cpuEMA`. -/
def isUnavailable (value : ℚ) : Prop := value < 0

instance (value : ℚ) : Decidable (isUnavailable value) := by
  unfold isUnavailable; infer_instance

/-! ## Layout and painting -/

/-- The range of a 32-bit `int`. -/
def fitsInt (z : ℤ) : Prop := -2147483648 ≤ z ∧ z ≤ 2147483647

instance (z : ℤ) : Decidable (fitsInt z) := by
  unfold fitsInt; infer_instance

/-- The constant `pad` of `PaintUI`. -/
def pad : ℤ := 16

/-- The local variables of `PaintUI`. -/
structure PaintLocals where
  yTop : ℤ
  clientW : ℤ
  clientH : ℤ
  maxWPerGauge : ℤ
  maxH : ℤ
  gaugeSize : ℤ
  totalWidth : ℤ
  startX : ℤ
  availableH : ℤ
  startY : ℤ
  deriving DecidableEq

/-- The layout computed by `PaintUI` from the client rectangle `rc` and the
measured title height `titleSz.cy`. -/
def paintLocals (rc : RECT) (titleCy : ℤ) : PaintLocals :=
  let yTop := pad + titleCy + 8
  let clientW := rc.right - rc.left
  let clientH := rc.bottom - rc.top
  let maxWPerGauge := Int.tdiv (clientW - pad * 3) 2
  let maxH := clientH - yTop - pad
  let gaugeSize := if maxWPerGauge < maxH then maxWPerGauge else maxH
  let gaugeSize := if gaugeSize < 1 then 1 else gaugeSize
  let totalWidth := gaugeSize * 2 + pad
  let startX := Int.tdiv (clientW - totalWidth) 2
  let startX := if startX < pad then pad else startX
  let availableH := clientH - yTop - pad
  let startY := yTop + Int.tdiv (availableH - gaugeSize) 2
  let startY := if startY < yTop then yTop else startY
  { yTop := yTop, clientW := clientW, clientH := clientH,
    maxWPerGauge := maxWPerGauge, maxH := maxH, gaugeSize := gaugeSize,
    totalWidth := totalWidth, startX := startX, availableH := availableH,
    startY := startY }

/-- The client rectangle `GetClientRect` reports for a client area of the
given width and height (its top-left corner is the origin). -/
def clientRect (width height : ℤ) : RECT :=
  { left := 0, top := 0, right := width, bottom := height }

/-- `PaintUI`: the CPU gauge and the RAM gauge it draws, in that order. -/
def PaintUI (g : Globals) (rc : RECT) (titleCy : ℤ) : GaugeDrawing × GaugeDrawing :=
  let p := paintLocals rc titleCy
  (DrawGauge p.startX p.startY p.gaugeSize g.g_cpu,
   DrawGauge (p.startX + p.gaugeSize + pad) p.startY p.gaugeSize g.g_ram)

/-! ## IEEE double arithmetic

`TakeSample` once more, with every operation on `double` rounded as the
hardware does it (binary64, round to nearest, ties to even, each product and
sum rounded on its own).  Overflow to infinity (magnitudes of `2^1024` and
more) is outside this model. -/

/-- Exponent `e` of the binade `2^e ≤ |q| < 2^(e+1)` of `q`, not below the
exponent `-1022` of the smallest normal double. -/
def binade (q : ℚ) : ℤ := max (Int.log 2 |q|) (-1022)

/-- Spacing of the doubles in the binade of `q`: 53 significant bits. -/
def ulp (q : ℚ) : ℚ := (2 : ℚ) ^ (binade q - 52)

/-- The double nearest to `q`, ties to the even significand. -/
def roundDouble (q : ℚ) : ℚ := (roundHalfEven (q / ulp q) : ℚ) * ulp q

/-- `ReadRamUsedPercent` in double arithmetic: the two conversions from
`ULONGLONG`, the division and the multiplication each round.  (As in
`ReadRamUsedPercent`, the quotient is meaningless for `ullTotalPhys = 0`.) -/
def ReadRamUsedPercentDouble (os : OsReply) : ℚ :=
  match os.memoryStatus with
  | some ms =>
    let used : ℚ :=
      roundDouble ((((ms.ullTotalPhys : ℤ) - (ms.ullAvailPhys : ℤ)) % 2 ^ 64 : ℤ) : ℚ)
    roundDouble (roundDouble (used / roundDouble (ms.ullTotalPhys : ℚ)) * 100.0)
  | none => -1.0

/-- `TakeSample` in double arithmetic: the literals `0.4` and `0.6` are the
nearest doubles, and the two products and the sum each round. -/
def TakeSampleDouble (g : Globals) (os : OsReply) : Globals :=
  let rawCpu := ReadCpuUsage g os
  let ema :=
    if g.g_cpuEMA < 0 then rawCpu
    else roundDouble (roundDouble (roundDouble 0.4 * rawCpu)
      + roundDouble (roundDouble 0.6 * g.g_cpuEMA))
  { g with g_cpuEMA := ema, g_cpu := ema, g_ram := ReadRamUsedPercentDouble os }

/-- The value of `g_cpu` published by each tick of a sequence, in double
arithmetic. -/
def cpuTraceDouble (g : Globals) : List OsReply → List ℚ
  | [] => []
  | os :: rest => (TakeSampleDouble g os).g_cpu :: cpuTraceDouble (TakeSampleDouble g os) rest

/-- The raw CPU reading of each tick of a sequence, in double arithmetic. -/
def rawTraceDouble (g : Globals) : List OsReply → List ℚ
  | [] => []
  | os :: rest => ReadCpuUsage g os :: rawTraceDouble (TakeSampleDouble g os) rest

/-- The smoothing recurrence of `TakeSampleDouble` on numbers alone. -/
def emaStepDouble (ema rawCpu : ℚ) : ℚ :=
  if ema < 0 then rawCpu
  else roundDouble (roundDouble (roundDouble 0.4 * rawCpu) + roundDouble (roundDouble 0.6 * ema))

/-- Outputs of iterating `emaStepDouble` over a list of raw readings. -/
def emaTraceDouble (ema : ℚ) : List ℚ → List ℚ
  | [] => []
  | r :: rest => emaStepDouble ema r :: emaTraceDouble (emaStepDouble ema r) rest

/-! ## Minimum and maximum of a list of readings -/

/-- Folding `min` over a list gives a lower bound of the start value and of
every element, attained by one of them. -/
theorem foldl_min_spec (xs : List ℚ) :
    ∀ a : ℚ, (xs.foldl min a ≤ a ∧ ∀ x ∈ xs, xs.foldl min a ≤ x) ∧
      (xs.foldl min a = a ∨ xs.foldl min a ∈ xs) := by
  induction xs with
  | nil => intro a; simp
  | cons y ys ih =>
    intro a
    obtain ⟨⟨h1, h2⟩, h3⟩ := ih (min a y)
    simp only [List.foldl_cons, List.mem_cons]
    refine ⟨⟨le_trans h1 (min_le_left _ _), ?_⟩, ?_⟩
    · intro x hx
      rcases hx with rfl | hx
      · exact le_trans h1 (min_le_right _ _)
      · exact h2 x hx
    · rcases h3 with h | h
      · rcases min_choice a y with h' | h'
        · left; rw [h, h']
        · right; left; rw [h, h']
      · right; right; exact h

/-- Folding `max` over a list gives an upper bound of the start value and of
every element, attained by one of them. -/
theorem foldl_max_spec (xs : List ℚ) :
    ∀ a : ℚ, (a ≤ xs.foldl max a ∧ ∀ x ∈ xs, x ≤ xs.foldl max a) ∧
      (xs.foldl max a = a ∨ xs.foldl max a ∈ xs) := by
  induction xs with
  | nil => intro a; simp
  | cons y ys ih =>
    intro a
    obtain ⟨⟨h1, h2⟩, h3⟩ := ih (max a y)
    simp only [List.foldl_cons, List.mem_cons]
    refine ⟨⟨le_trans (le_max_left _ _) h1, ?_⟩, ?_⟩
    · intro x hx
      rcases hx with rfl | hx
      · exact le_trans (le_max_right _ _) h1
      · exact h2 x hx
    · rcases h3 with h | h
      · rcases max_choice a y with h' | h'
        · left; rw [h, h']
        · right; left; rw [h, h']
      · right; right; exact h

/-- `seqMin` of a non-empty list is its least element. -/
theorem seqMin_spec (l : List ℚ) (hl : l ≠ []) :
    seqMin l ∈ l ∧ ∀ x ∈ l, seqMin l ≤ x := by
  cases l with
  | nil => exact absurd rfl hl
  | cons a xs =>
    obtain ⟨⟨h1, h2⟩, h3⟩ := foldl_min_spec xs a
    simp only [seqMin, List.mem_cons]
    refine ⟨?_, ?_⟩
    · rcases h3 with h | h
      · left; exact h
      · right; exact h
    · intro x hx
      rcases hx with rfl | hx
      · exact h1
      · exact h2 x hx

/-- `seqMax` of a non-empty list is its greatest element. -/
theorem seqMax_spec (l : List ℚ) (hl : l ≠ []) :
    seqMax l ∈ l ∧ ∀ x ∈ l, x ≤ seqMax l := by
  cases l with
  | nil => exact absurd rfl hl
  | cons a xs =>
    obtain ⟨⟨h1, h2⟩, h3⟩ := foldl_max_spec xs a
    simp only [seqMax, List.mem_cons]
    refine ⟨?_, ?_⟩
    · rcases h3 with h | h
      · left; exact h
      · right; exact h
    · intro x hx
      rcases hx with rfl | hx
      · exact h1
      · exact h2 x hx

/-! ## Facts about sampling -/

/-- The EMA stored by a tick is one step of the recurrence. -/
theorem TakeSample_ema (g : Globals) (os : OsReply) :
    (TakeSample g os).g_cpuEMA = emaStep g.g_cpuEMA (ReadCpuUsage g os) := rfl

/-- The value published by a tick is the EMA it stores. -/
theorem TakeSample_cpu (g : Globals) (os : OsReply) :
    (TakeSample g os).g_cpu = emaStep g.g_cpuEMA (ReadCpuUsage g os) := rfl

/-- The RAM value published by a tick is the reading of that tick. -/
theorem TakeSample_ram (g : Globals) (os : OsReply) :
    (TakeSample g os).g_ram = ReadRamUsedPercent os := rfl

/-- A tick leaves the PDH handles alone, so the raw reading of a later tick
does not depend on the ticks before it. -/
theorem ReadCpuUsage_TakeSample (g : Globals) (os os' : OsReply) :
    ReadCpuUsage (TakeSample g os') os = ReadCpuUsage g os := rfl

/-- The raw readings of a run are the readings of its replies in the first
state. -/
theorem rawTrace_eq_map (ticks : List OsReply) :
    ∀ g : Globals, rawTrace g ticks = ticks.map (ReadCpuUsage g) := by
  induction ticks with
  | nil => intro g; rfl
  | cons os rest ih =>
    intro g
    rw [rawTrace, ih, List.map_cons]
    rfl

/-- The published CPU values are the recurrence iterated over the raw
readings. -/
theorem cpuTrace_eq_emaTrace (ticks : List OsReply) :
    ∀ g : Globals, cpuTrace g ticks = emaTrace g.g_cpuEMA (rawTrace g ticks) := by
  induction ticks with
  | nil => intro g; rfl
  | cons os rest ih =>
    intro g
    simp only [cpuTrace, rawTrace, emaTrace, ih, TakeSample_ema, TakeSample_cpu]

/-- One raw reading per tick. -/
theorem rawTrace_length (ticks : List OsReply) :
    ∀ g : Globals, (rawTrace g ticks).length = ticks.length := by
  induction ticks with
  | nil => intro g; rfl
  | cons os rest ih => intro g; simp [rawTrace, ih]

/-- A raw reading of exactly `-1` (the value `ReadCpuUsage` returns on
failure): an unset EMA stays `-1` and `-1` is published, but a carried EMA
`e ≥ 0` is replaced by `0.6 * e - 0.4`, which is also what is published. -/
theorem TakeSample_failed_read (g : Globals) (os : OsReply)
    (hraw : ReadCpuUsage g os = -1) :
    (g.g_cpuEMA < 0 →
        (TakeSample g os).g_cpuEMA = -1 ∧ (TakeSample g os).g_cpu = -1) ∧
    (0 ≤ g.g_cpuEMA →
        (TakeSample g os).g_cpuEMA = 0.6 * g.g_cpuEMA - 0.4 ∧
        (TakeSample g os).g_cpu = 0.6 * g.g_cpuEMA - 0.4) := by
  rw [TakeSample_ema, TakeSample_cpu, hraw]
  unfold emaStep
  constructor
  · intro h; simp [h]
  · intro h
    have h' : ¬ g.g_cpuEMA < 0 := not_lt.mpr h
    simp only [h', if_false]
    constructor <;> ring

/-- C1, evaluated on the code: with a carried EMA of `50`, a tick whose raw
CPU read fails (`ReadCpuUsage` returns `-1`) publishes `29.6`, which is not an
unavailable value, and overwrites the carried EMA with `29.6`; accordingly the
readings `[50, failed, 50]` publish `[50, 29.6, 37.76]` whereas `[50, 50]`
publish `[50, 50]`. -/
theorem TakeSample_failed_read_blends :
    ReadCpuUsage { Globals.fresh true true with g_cpu := 50, g_cpuEMA := 50 }
        (failedCpuTick none) = -1 ∧
    (TakeSample { Globals.fresh true true with g_cpu := 50, g_cpuEMA := 50 }
        (failedCpuTick none)).g_cpu = 148 / 5 ∧
    ¬ isUnavailable (TakeSample { Globals.fresh true true with g_cpu := 50, g_cpuEMA := 50 }
        (failedCpuTick none)).g_cpu ∧
    (TakeSample { Globals.fresh true true with g_cpu := 50, g_cpuEMA := 50 }
        (failedCpuTick none)).g_cpuEMA = 148 / 5 ∧
    cpuTrace (Globals.fresh true true)
        [cpuTick 50 none, failedCpuTick none, cpuTick 50 none] = [50, 148 / 5, 944 / 25] ∧
    cpuTrace (Globals.fresh true true) [cpuTick 50 none, cpuTick 50 none] = [50, 50] := by
  refine ⟨?_, ?_, ?_, ?_, ?_, ?_⟩
  · norm_num [ReadCpuUsage, Globals.fresh, failedCpuTick]
  · norm_num [TakeSample, ReadCpuUsage, Globals.fresh, failedCpuTick]
  · norm_num [isUnavailable, TakeSample, ReadCpuUsage, Globals.fresh, failedCpuTick]
  · norm_num [TakeSample, ReadCpuUsage, Globals.fresh, failedCpuTick]
  · norm_num [cpuTrace, TakeSample, ReadCpuUsage, Globals.fresh, failedCpuTick, cpuTick]
  · norm_num [cpuTrace, TakeSample, ReadCpuUsage, Globals.fresh, cpuTick]

/-- Evaluating `round2`: `q` rounds to `n / 100` when `q * 100` is within a
half of `n` (the upper end excluded). -/
theorem round2_eq (q : ℚ) (n : ℤ) (h1 : (n : ℚ) - 1 / 2 ≤ q * 100)
    (h2 : q * 100 < (n : ℚ) + 1 / 2) : round2 q = (n : ℚ) / 100 := by
  unfold round2
  rw [round_eq]
  have : ⌊q * 100 + 1 / 2⌋ = n := by
    rw [Int.floor_eq_iff]
    constructor <;> linarith
  rw [this]

/-- C2, as the spec states it, fails: from the fresh state the raw CPU values
`[10, 90, 10, 90, 10]` do not publish `[10, 42, 28.8, 52.32, 32.39]` after
rounding to two decimals. -/
theorem cpuTrace_scenario_differs_from_spec :
    (cpuTrace (Globals.fresh true true)
        [cpuTick 10 none, cpuTick 90 none, cpuTick 10 none, cpuTick 90 none,
          cpuTick 10 none]).map round2 ≠ [10, 42, 28.8, 52.32, 32.39] := by
  have h : cpuTrace (Globals.fresh true true)
      [cpuTick 10 none, cpuTick 90 none, cpuTick 10 none, cpuTick 90 none,
        cpuTick 10 none] = [10, 42, 146 / 5, 1338 / 25, 4514 / 125] := by
    norm_num [cpuTrace, TakeSample, ReadCpuUsage, Globals.fresh, cpuTick]
  rw [h]
  simp only [List.map_cons, List.map_nil]
  rw [round2_eq (146 / 5) 2920 (by norm_num) (by norm_num)]
  norm_num

/-- C2, amended: starting with the EMA unset, five ticks whose raw CPU values
are `[10, 90, 10, 90, 10]` publish exactly `[10, 42, 29.2, 53.52, 36.112]`,
which is `[10, 42, 29.2, 53.52, 36.11]` when rounded to two decimals. -/
theorem cpuTrace_scenario (g : Globals) (ticks : List OsReply)
    (hunset : g.g_cpuEMA < 0)
    (hraw : rawTrace g ticks = [10, 90, 10, 90, 10]) :
    cpuTrace g ticks = [10, 42, 146 / 5, 1338 / 25, 4514 / 125] ∧
    (cpuTrace g ticks).map round2 = [10, 42, 29.2, 53.52, 36.11] := by
  have h : cpuTrace g ticks = [10, 42, 146 / 5, 1338 / 25, 4514 / 125] := by
    rw [cpuTrace_eq_emaTrace, hraw]
    norm_num [emaTrace, emaStep, hunset]
  refine ⟨h, ?_⟩
  rw [h]
  simp only [List.map_cons, List.map_nil]
  rw [round2_eq 10 1000 (by norm_num) (by norm_num),
    round2_eq 42 4200 (by norm_num) (by norm_num),
    round2_eq (146 / 5) 2920 (by norm_num) (by norm_num),
    round2_eq (1338 / 25) 5352 (by norm_num) (by norm_num),
    round2_eq (4514 / 125) 3611 (by norm_num) (by norm_num)]
  norm_num

/-- The hypotheses of `cpuTrace_scenario` hold for the fresh globals with both
handles open and five successful counter reads. -/
theorem cpuTrace_scenario_witness :
    (Globals.fresh true true).g_cpuEMA < 0 ∧
    rawTrace (Globals.fresh true true)
      [cpuTick 10 none, cpuTick 90 none, cpuTick 10 none, cpuTick 90 none,
        cpuTick 10 none] = [10, 90, 10, 90, 10] ∧
    cpuTrace (Globals.fresh true true)
      [cpuTick 10 none, cpuTick 90 none, cpuTick 10 none, cpuTick 90 none,
        cpuTick 10 none] = [10, 42, 146 / 5, 1338 / 25, 4514 / 125] ∧
    (cpuTrace (Globals.fresh true true)
      [cpuTick 10 none, cpuTick 90 none, cpuTick 10 none, cpuTick 90 none,
        cpuTick 10 none]).map round2 = [10, 42, 29.2, 53.52, 36.11] :=
  have h1 : (Globals.fresh true true).g_cpuEMA < 0 := by norm_num [Globals.fresh]
  have h2 : rawTrace (Globals.fresh true true)
      [cpuTick 10 none, cpuTick 90 none, cpuTick 10 none, cpuTick 90 none,
        cpuTick 10 none] = [10, 90, 10, 90, 10] := by
    simp [rawTrace, ReadCpuUsage, TakeSample, Globals.fresh, cpuTick]
  ⟨h1, h2, cpuTrace_scenario _ _ h1 h2⟩

/-- C3: for an available raw CPU value `v ≥ 0`, a tick on an unset EMA sets the
EMA to `v` and publishes `v`; a tick on a carried EMA `e ≥ 0` sets the EMA to
`0.4 * v + 0.6 * e` and publishes that value. -/
theorem TakeSample_available (g : Globals) (os : OsReply) (v : ℚ)
    (hraw : ReadCpuUsage g os = v) (_hv : 0 ≤ v) :
    (g.g_cpuEMA < 0 →
        (TakeSample g os).g_cpuEMA = v ∧ (TakeSample g os).g_cpu = v) ∧
    (0 ≤ g.g_cpuEMA →
        (TakeSample g os).g_cpuEMA = 0.4 * v + 0.6 * g.g_cpuEMA ∧
        (TakeSample g os).g_cpu = 0.4 * v + 0.6 * g.g_cpuEMA) := by
  rw [TakeSample_ema, TakeSample_cpu, hraw]
  unfold emaStep
  constructor
  · intro h; simp [h]
  · intro h
    have h' : ¬ g.g_cpuEMA < 0 := not_lt.mpr h
    simp [h']

/-- The hypotheses of `TakeSample_available` hold for a carried EMA of `10` and
a counter read of `90`. -/
theorem TakeSample_available_witness :
    ReadCpuUsage { Globals.fresh true true with g_cpuEMA := 10 } (cpuTick 90 none) = 90 ∧
    (0 : ℚ) ≤ 90 ∧
    (({ Globals.fresh true true with g_cpuEMA := 10 } : Globals).g_cpuEMA < 0 →
        (TakeSample { Globals.fresh true true with g_cpuEMA := 10 }
          (cpuTick 90 none)).g_cpuEMA = 90 ∧
        (TakeSample { Globals.fresh true true with g_cpuEMA := 10 }
          (cpuTick 90 none)).g_cpu = 90) ∧
    (0 ≤ ({ Globals.fresh true true with g_cpuEMA := 10 } : Globals).g_cpuEMA →
        (TakeSample { Globals.fresh true true with g_cpuEMA := 10 }
          (cpuTick 90 none)).g_cpuEMA = 0.4 * 90 + 0.6 * 10 ∧
        (TakeSample { Globals.fresh true true with g_cpuEMA := 10 }
          (cpuTick 90 none)).g_cpu = 0.4 * 90 + 0.6 * 10) :=
  have h1 : ReadCpuUsage { Globals.fresh true true with g_cpuEMA := 10 }
      (cpuTick 90 none) = 90 := by
    simp [ReadCpuUsage, Globals.fresh, cpuTick]
  ⟨h1, by norm_num, TakeSample_available _ _ 90 h1 (by norm_num)⟩

/-- One smoothing step stays inside any interval that contains the raw
reading and, when an EMA is carried, the carried EMA. -/
theorem emaStep_between (ema r lo hi : ℚ)
    (hema : ema < 0 ∨ (lo ≤ ema ∧ ema ≤ hi)) (hlo : lo ≤ r) (hhi : r ≤ hi) :
    lo ≤ emaStep ema r ∧ emaStep ema r ≤ hi := by
  unfold emaStep
  by_cases h : ema < 0
  · simp only [h, if_true]; exact ⟨hlo, hhi⟩
  · simp only [h, if_false]
    rcases hema with h0 | ⟨h1, h2⟩
    · exact absurd h0 h
    · constructor
      · norm_num; linarith
      · norm_num; linarith

/-- The smoothed outputs stay between the running minimum and maximum, for a
run that starts from a carried EMA inside `[lo, hi]` (or from no EMA). -/
theorem emaTrace_between (raws : List ℚ) :
    ∀ (ema lo hi : ℚ), (ema < 0 ∨ (lo ≤ ema ∧ ema ≤ hi)) →
    ∀ i : ℕ, i < raws.length →
      ∃ y, (emaTrace ema raws)[i]? = some y ∧
        (raws.take (i + 1)).foldl min lo ≤ y ∧ y ≤ (raws.take (i + 1)).foldl max hi := by
  induction raws with
  | nil => intro ema lo hi _ i hi'; simp at hi'
  | cons r rest ih =>
    intro ema lo hi hema i hi'
    have hstep : min lo r ≤ emaStep ema r ∧ emaStep ema r ≤ max hi r := by
      apply emaStep_between
      · rcases hema with h | ⟨h1, h2⟩
        · exact Or.inl h
        · exact Or.inr ⟨le_trans (min_le_left _ _) h1, le_trans h2 (le_max_left _ _)⟩
      · exact min_le_right _ _
      · exact le_max_right _ _
    cases i with
    | zero =>
      refine ⟨emaStep ema r, ?_, ?_⟩
      · simp [emaTrace]
      · simpa using hstep
    | succ j =>
      have hj : j < rest.length := by simpa using hi'
      obtain ⟨y, hy, hb⟩ := ih (emaStep ema r) (min lo r) (max hi r) (Or.inr hstep) j hj
      refine ⟨y, ?_, ?_⟩
      · simpa [emaTrace] using hy
      · simpa using hb

/-- In exact arithmetic, feeding raw CPU values tick by tick from a state whose
EMA is unset, the value published by each tick lies between the minimum and
the maximum of the raw values read up to and including that tick.  (With the
rounding of the code the bound holds up to a slack, see
`cpuTraceDouble_within_raw_range`.) -/
theorem cpuTrace_within_raw_range (g : Globals) (ticks : List OsReply)
    (hunset : g.g_cpuEMA < 0) (i : ℕ) (hi : i < ticks.length) :
    ∃ y, (cpuTrace g ticks)[i]? = some y ∧
      seqMin ((rawTrace g ticks).take (i + 1)) ≤ y ∧
      y ≤ seqMax ((rawTrace g ticks).take (i + 1)) := by
  rw [cpuTrace_eq_emaTrace]
  have hlen := rawTrace_length ticks g
  generalize rawTrace g ticks = raws at hlen
  cases raws with
  | nil => simp at hlen; omega
  | cons r rest =>
    have hfirst : emaStep g.g_cpuEMA r = r := by simp [emaStep, hunset]
    cases i with
    | zero =>
      refine ⟨r, ?_, ?_⟩
      · simp [emaTrace, hfirst]
      · simp [seqMin, seqMax]
    | succ j =>
      have hj : j < rest.length := by simp at hlen; omega
      obtain ⟨y, hy, hb⟩ := emaTrace_between rest r r r (Or.inr ⟨le_refl _, le_refl _⟩) j hj
      refine ⟨y, ?_, ?_⟩
      · simpa [emaTrace, hfirst] using hy
      · simpa [seqMin, seqMax] using hb

/-! ## Facts about the RAM reading -/

/-- On success the RAM reading is never negative. -/
theorem ReadRamUsedPercent_nonneg_of_success (os : OsReply) (ms : MEMORYSTATUSEX)
    (hms : os.memoryStatus = some ms) : 0 ≤ ReadRamUsedPercent os := by
  unfold ReadRamUsedPercent
  rw [hms]
  have h1 : (0 : ℤ) ≤ ((ms.ullTotalPhys : ℤ) - (ms.ullAvailPhys : ℤ)) % 2 ^ 64 :=
    Int.emod_nonneg _ (by norm_num)
  have h2 : (0 : ℚ) ≤ ((((ms.ullTotalPhys : ℤ) - (ms.ullAvailPhys : ℤ)) % 2 ^ 64 : ℤ) : ℚ) := by
    exact_mod_cast h1
  have h3 : (0 : ℚ) ≤ (ms.ullTotalPhys : ℚ) := by positivity
  have h4 : (0 : ℚ) ≤ ((((ms.ullTotalPhys : ℤ) - (ms.ullAvailPhys : ℤ)) % 2 ^ 64 : ℤ) : ℚ)
      / (ms.ullTotalPhys : ℚ) := div_nonneg h2 h3
  norm_num
  exact h4

/-- On success, with `A ≤ T < 2^64` and `T ≠ 0`, the RAM reading is
`(T - A) / T * 100`. -/
theorem ReadRamUsedPercent_of_success (os : OsReply) (T A : ℕ)
    (hms : os.memoryStatus = some { ullTotalPhys := T, ullAvailPhys := A })
    (hA : A ≤ T) (hT : T < 2 ^ 64) :
    ReadRamUsedPercent os = ((T : ℚ) - (A : ℚ)) / (T : ℚ) * 100 := by
  unfold ReadRamUsedPercent
  rw [hms]
  have h0 : (0 : ℤ) ≤ (T : ℤ) - (A : ℤ) := by omega
  have h1 : (T : ℤ) - (A : ℤ) < 2 ^ 64 := by
    have : (T : ℤ) < 2 ^ 64 := by exact_mod_cast hT
    omega
  have h2 : ((T : ℤ) - (A : ℤ)) % 2 ^ 64 = (T : ℤ) - (A : ℤ) := Int.emod_eq_of_lt h0 h1
  simp only [h2]
  push_cast
  norm_num

/-- C5: when the memory-status query succeeds with total `T` and available
`A` (`A ≤ T`, `0 < T`, both 64-bit), `ReadRamUsedPercent` returns
`(T - A) / T * 100`; it returns `-1` exactly when the query fails; and for
`T = 16,000,000,000`, `A = 4,000,000,000` it returns `75`. -/
theorem ReadRamUsedPercent_spec :
    (∀ (os : OsReply) (T A : ℕ),
        os.memoryStatus = some { ullTotalPhys := T, ullAvailPhys := A } →
        A ≤ T → 0 < T → T < 2 ^ 64 →
        ReadRamUsedPercent os = ((T : ℚ) - (A : ℚ)) / (T : ℚ) * 100) ∧
    (∀ os : OsReply, ReadRamUsedPercent os = -1 ↔ os.memoryStatus = none) ∧
    (∀ counter : Option ℚ,
        ReadRamUsedPercent
          { counterValue := counter,
            memoryStatus := some { ullTotalPhys := 16000000000,
                                   ullAvailPhys := 4000000000 } } = 75) := by
  refine ⟨?_, ?_, ?_⟩
  · intro os T A hms hA _ hT
    exact ReadRamUsedPercent_of_success os T A hms hA hT
  · intro os
    constructor
    · intro h
      cases hms : os.memoryStatus with
      | none => rfl
      | some ms =>
        have := ReadRamUsedPercent_nonneg_of_success os ms hms
        rw [h] at this
        norm_num at this
    · intro h
      unfold ReadRamUsedPercent
      rw [h]
      norm_num
  · intro counter
    rw [ReadRamUsedPercent_of_success _ 16000000000 4000000000 rfl (by norm_num) (by norm_num)]
    norm_num

/-- On success with `0 < T` and `A ≤ T` the RAM reading is a percentage. -/
theorem ReadRamUsedPercent_range (os : OsReply) (ms : MEMORYSTATUSEX)
    (hms : os.memoryStatus = some ms) (hT : 0 < ms.ullTotalPhys)
    (hA : ms.ullAvailPhys ≤ ms.ullTotalPhys) :
    0 ≤ ReadRamUsedPercent os ∧ ReadRamUsedPercent os ≤ 100 := by
  refine ⟨ReadRamUsedPercent_nonneg_of_success os ms hms, ?_⟩
  unfold ReadRamUsedPercent
  rw [hms]
  have h0 : (0 : ℤ) ≤ (ms.ullTotalPhys : ℤ) - (ms.ullAvailPhys : ℤ) := by omega
  have h1 : ((ms.ullTotalPhys : ℤ) - (ms.ullAvailPhys : ℤ)) % 2 ^ 64
      ≤ (ms.ullTotalPhys : ℤ) := by
    omega
  have h2 : ((((ms.ullTotalPhys : ℤ) - (ms.ullAvailPhys : ℤ)) % 2 ^ 64 : ℤ) : ℚ)
      ≤ (ms.ullTotalPhys : ℚ) := by exact_mod_cast h1
  have hTq : (0 : ℚ) < (ms.ullTotalPhys : ℚ) := by exact_mod_cast hT
  have h3 : ((((ms.ullTotalPhys : ℤ) - (ms.ullAvailPhys : ℤ)) % 2 ^ 64 : ℤ) : ℚ)
      / (ms.ullTotalPhys : ℚ) ≤ 1 := (div_le_one hTq).mpr h2
  norm_num
  linarith

/-- The state reached by ticks whose raw CPU readings are `-1` or percentages
and whose memory replies are well formed keeps the carried EMA in `[-1, 100]`,
publishes the EMA as `g_cpu`, and holds `-1` or a percentage in `g_ram`. -/
theorem runTicks_invariant (ticks : List OsReply) :
    ∀ g : Globals,
      (-1 ≤ g.g_cpuEMA ∧ g.g_cpuEMA ≤ 100) → g.g_cpu = g.g_cpuEMA →
      (g.g_ram = -1 ∨ (0 ≤ g.g_ram ∧ g.g_ram ≤ 100)) →
      (∀ r ∈ rawTrace g ticks, r = -1 ∨ (0 ≤ r ∧ r ≤ 100)) →
      (∀ os ∈ ticks, ∀ ms : MEMORYSTATUSEX, os.memoryStatus = some ms →
        0 < ms.ullTotalPhys ∧ ms.ullAvailPhys ≤ ms.ullTotalPhys) →
      (-1 ≤ (runTicks g ticks).g_cpu ∧ (runTicks g ticks).g_cpu ≤ 100) ∧
      ((runTicks g ticks).g_ram = -1 ∨
        (0 ≤ (runTicks g ticks).g_ram ∧ (runTicks g ticks).g_ram ≤ 100)) := by
  induction ticks with
  | nil =>
    intro g hema hcpu hram _ _
    simp only [runTicks]
    rw [hcpu]
    exact ⟨hema, hram⟩
  | cons os rest ih =>
    intro g hema _ _ hraw hmem
    simp only [runTicks]
    have hr : ReadCpuUsage g os = -1 ∨ (0 ≤ ReadCpuUsage g os ∧ ReadCpuUsage g os ≤ 100) :=
      hraw _ (by simp [rawTrace])
    have hr' : -1 ≤ ReadCpuUsage g os ∧ ReadCpuUsage g os ≤ 100 := by
      rcases hr with h | ⟨h1, h2⟩
      · rw [h]; norm_num
      · exact ⟨by linarith, h2⟩
    apply ih (TakeSample g os)
    · rw [TakeSample_ema]
      exact emaStep_between _ _ _ _ (Or.inr hema) hr'.1 hr'.2
    · rfl
    · rw [TakeSample_ram]
      cases hms : os.memoryStatus with
      | none => left; unfold ReadRamUsedPercent; rw [hms]; norm_num
      | some ms =>
        right
        obtain ⟨hT, hA⟩ := hmem os (by simp) ms hms
        exact ReadRamUsedPercent_range os ms hms hT hA
    · intro r hrmem
      exact hraw r (by simp [rawTrace, hrmem])
    · intro os' hos'
      exact hmem os' (by simp [hos'])

/-- What holds of the published values: starting from the initial globals,
after any sequence of ticks in which every raw CPU reading is `-1` or lies in
`[0, 100]` and every memory query fails or reports `0 < total` and
`available ≤ total`, the published `g_cpu` is negative or lies in `[0, 100]`,
and the published `g_ram` is `-1` or lies in `[0, 100]`.  (A negative `g_cpu`
need not be `-1`, see `display_cpu_outside_range`.) -/
theorem display_in_range (query counter : Bool) (ticks : List OsReply)
    (hcpu : ∀ r ∈ rawTrace (Globals.fresh query counter) ticks,
      r = -1 ∨ (0 ≤ r ∧ r ≤ 100))
    (hmem : ∀ os ∈ ticks, ∀ ms : MEMORYSTATUSEX, os.memoryStatus = some ms →
      0 < ms.ullTotalPhys ∧ ms.ullAvailPhys ≤ ms.ullTotalPhys) :
    (isUnavailable (runTicks (Globals.fresh query counter) ticks).g_cpu ∨
      (0 ≤ (runTicks (Globals.fresh query counter) ticks).g_cpu ∧
        (runTicks (Globals.fresh query counter) ticks).g_cpu ≤ 100)) ∧
    ((runTicks (Globals.fresh query counter) ticks).g_ram = -1 ∨
      (0 ≤ (runTicks (Globals.fresh query counter) ticks).g_ram ∧
        (runTicks (Globals.fresh query counter) ticks).g_ram ≤ 100)) := by
  have h := runTicks_invariant ticks (Globals.fresh query counter)
    (by norm_num [Globals.fresh]) (by norm_num [Globals.fresh])
    (Or.inl (by norm_num [Globals.fresh])) hcpu hmem
  refine ⟨?_, h.2⟩
  unfold isUnavailable
  rcases lt_or_le (runTicks (Globals.fresh query counter) ticks).g_cpu 0 with hneg | hpos
  · exact Or.inl hneg
  · exact Or.inr ⟨hpos, h.1.2⟩

/-- The hypotheses of the first part of `ReadRamUsedPercent_spec` hold for
16,000,000,000 total and 4,000,000,000 available bytes. -/
theorem ReadRamUsedPercent_spec_witness :
    4000000000 ≤ 16000000000 ∧ 0 < 16000000000 ∧ 16000000000 < 2 ^ 64 ∧
    ReadRamUsedPercent
      (cpuTick 50 (some { ullTotalPhys := 16000000000, ullAvailPhys := 4000000000 }))
      = (((16000000000 : ℕ) : ℚ) - ((4000000000 : ℕ) : ℚ)) / ((16000000000 : ℕ) : ℚ) * 100 :=
  ⟨by norm_num, by norm_num, by norm_num,
    ReadRamUsedPercent_spec.1 _ 16000000000 4000000000 rfl
      (by norm_num) (by norm_num) (by norm_num)⟩

/-- Halving with truncation toward zero: `x / 2` in C++ lies within one half of
`x / 2` and on the side of zero. -/
theorem tdiv_two_bounds (x : ℤ) :
    (0 ≤ x → 2 * Int.tdiv x 2 ≤ x ∧ x ≤ 2 * Int.tdiv x 2 + 1) ∧
    (x ≤ 0 → x ≤ 2 * Int.tdiv x 2 ∧ 2 * Int.tdiv x 2 ≤ x + 1) := by
  constructor
  · intro h
    rw [Int.tdiv_eq_ediv h (by norm_num)]
    omega
  · intro h
    have h1 : Int.tdiv (-(-x)) 2 = -(Int.tdiv (-x) 2) := Int.neg_tdiv _ _
    rw [neg_neg] at h1
    rw [h1, Int.tdiv_eq_ediv (by omega) (by norm_num)]
    omega

/-- The locals of `PaintUI` in terms of one another, as the code computes them. -/
theorem paintLocals_eq (rc : RECT) (titleCy : ℤ) :
    (paintLocals rc titleCy).yTop = pad + titleCy + 8 ∧
    (paintLocals rc titleCy).clientW = rc.right - rc.left ∧
    (paintLocals rc titleCy).clientH = rc.bottom - rc.top ∧
    (paintLocals rc titleCy).maxWPerGauge =
      Int.tdiv ((paintLocals rc titleCy).clientW - pad * 3) 2 ∧
    (paintLocals rc titleCy).maxH =
      (paintLocals rc titleCy).clientH - (paintLocals rc titleCy).yTop - pad ∧
    (paintLocals rc titleCy).gaugeSize =
      max 1 (min (paintLocals rc titleCy).maxWPerGauge (paintLocals rc titleCy).maxH) ∧
    (paintLocals rc titleCy).totalWidth = (paintLocals rc titleCy).gaugeSize * 2 + pad ∧
    (paintLocals rc titleCy).startX =
      max pad (Int.tdiv ((paintLocals rc titleCy).clientW
        - (paintLocals rc titleCy).totalWidth) 2) ∧
    (paintLocals rc titleCy).availableH =
      (paintLocals rc titleCy).clientH - (paintLocals rc titleCy).yTop - pad ∧
    (paintLocals rc titleCy).startY =
      max (paintLocals rc titleCy).yTop
        ((paintLocals rc titleCy).yTop + Int.tdiv ((paintLocals rc titleCy).availableH
          - (paintLocals rc titleCy).gaugeSize) 2) := by
  refine ⟨rfl, rfl, rfl, rfl, rfl, ?_, rfl, ?_, rfl, ?_⟩
  · simp only [paintLocals]
    generalize Int.tdiv (rc.right - rc.left - pad * 3) 2 = a
    generalize rc.bottom - rc.top - (pad + titleCy + 8) - pad = b
    omega
  · simp only [paintLocals]
    generalize Int.tdiv _ 2 = a
    generalize pad = b
    omega
  · simp only [paintLocals]
    generalize Int.tdiv _ 2 = a
    generalize pad + titleCy + 8 = b
    omega

/-- Facts about `max` in the form linear arithmetic uses. -/
theorem max_linear (c a b : ℤ) (h : c = max a b) :
    a ≤ c ∧ b ≤ c ∧ (c = a ∨ c = b) := by
  subst h
  refine ⟨le_max_left a b, le_max_right a b, ?_⟩
  rcases le_total a b with hab | hab
  · right; exact max_eq_right hab
  · left; exact max_eq_left hab

/-- Facts about `min` in the form linear arithmetic uses. -/
theorem min_linear (c a b : ℤ) (h : c = min a b) :
    c ≤ a ∧ c ≤ b ∧ (c = a ∨ c = b) := by
  subst h
  refine ⟨min_le_left a b, min_le_right a b, ?_⟩
  rcases le_total a b with hab | hab
  · left; exact min_eq_left hab
  · right; exact min_eq_right hab

/-- The layout for a client area of width `w` and height `h`, as linear
constraints on the fields of `p = paintLocals (clientRect w h) titleCy`: `m`
stands for `min maxWPerGauge maxH`, `sx` and `sy` for the two truncated halves
`(clientW - totalWidth) / 2` and `(availableH - gaugeSize) / 2`. -/
theorem paintLocals_linear (w h titleCy : ℤ) (p : PaintLocals)
    (hp : p = paintLocals (clientRect w h) titleCy) :
    ∃ m sx sy : ℤ,
      (p.yTop = 16 + titleCy + 8 ∧ p.clientW = w ∧ p.clientH = h) ∧
      ((0 ≤ w - 48 → 2 * p.maxWPerGauge ≤ w - 48 ∧ w - 48 ≤ 2 * p.maxWPerGauge + 1) ∧
       (w - 48 ≤ 0 → w - 48 ≤ 2 * p.maxWPerGauge ∧ 2 * p.maxWPerGauge ≤ w - 48 + 1)) ∧
      (p.maxH = h - (16 + titleCy + 8) - 16 ∧ p.availableH = p.maxH) ∧
      (m = min p.maxWPerGauge p.maxH ∧
        m ≤ p.maxWPerGauge ∧ m ≤ p.maxH ∧ (m = p.maxWPerGauge ∨ m = p.maxH)) ∧
      (1 ≤ p.gaugeSize ∧ m ≤ p.gaugeSize ∧ (p.gaugeSize = 1 ∨ p.gaugeSize = m)) ∧
      p.totalWidth = p.gaugeSize * 2 + 16 ∧
      ((0 ≤ w - p.totalWidth → 2 * sx ≤ w - p.totalWidth ∧ w - p.totalWidth ≤ 2 * sx + 1) ∧
       (w - p.totalWidth ≤ 0 → w - p.totalWidth ≤ 2 * sx ∧ 2 * sx ≤ w - p.totalWidth + 1)) ∧
      (16 ≤ p.startX ∧ sx ≤ p.startX ∧ (p.startX = 16 ∨ p.startX = sx)) ∧
      ((0 ≤ p.availableH - p.gaugeSize →
          2 * sy ≤ p.availableH - p.gaugeSize ∧ p.availableH - p.gaugeSize ≤ 2 * sy + 1) ∧
       (p.availableH - p.gaugeSize ≤ 0 →
          p.availableH - p.gaugeSize ≤ 2 * sy ∧ 2 * sy ≤ p.availableH - p.gaugeSize + 1)) ∧
      (p.yTop ≤ p.startY ∧ p.yTop + sy ≤ p.startY ∧
        (p.startY = p.yTop ∨ p.startY = p.yTop + sy)) := by
  obtain ⟨hy, hw, hh, hmw, hmh, hgs, htw, hsx, hah, hsy⟩ :=
    paintLocals_eq (clientRect w h) titleCy
  rw [← hp] at hy hw hh hmw hmh hgs htw hsx hah hsy
  clear hp
  have hw' : p.clientW = w := by rw [hw]; simp [clientRect]
  have hh' : p.clientH = h := by rw [hh]; simp [clientRect]
  have b1 := tdiv_two_bounds (p.clientW - pad * 3)
  have b2 := tdiv_two_bounds (p.clientW - p.totalWidth)
  have b3 := tdiv_two_bounds (p.availableH - p.gaugeSize)
  rw [← hmw] at b1
  have hm := min_linear _ _ _ (rfl : min p.maxWPerGauge p.maxH = min p.maxWPerGauge p.maxH)
  have hg := max_linear _ _ _ hgs
  have hx := max_linear _ _ _ hsx
  have hs := max_linear _ _ _ hsy
  rw [hw'] at b1 b2 hx
  simp only [pad] at *
  refine ⟨min p.maxWPerGauge p.maxH, Int.tdiv (w - p.totalWidth) 2,
    Int.tdiv (p.availableH - p.gaugeSize) 2, ⟨?_, hw', hh'⟩, ?_, ⟨?_, ?_⟩, ⟨rfl, hm⟩, hg, htw,
    b2, hx, b3, hs⟩
  · rw [hy]
  · exact b1
  · rw [hmh, hy, hh']
  · rw [hah, hmh]

/-- The cards of the two gauges drawn by `PaintUI`: both are squares of side
`gaugeSize` with top edge `startY`; the first starts at `startX`, the second
at `startX + gaugeSize + pad`. -/
theorem PaintUI_cards (g : Globals) (rc : RECT) (titleCy : ℤ) :
    (PaintUI g rc titleCy).1.card =
      { left := (paintLocals rc titleCy).startX,
        top := (paintLocals rc titleCy).startY,
        right := (paintLocals rc titleCy).startX + (paintLocals rc titleCy).gaugeSize,
        bottom := (paintLocals rc titleCy).startY + (paintLocals rc titleCy).gaugeSize } ∧
    (PaintUI g rc titleCy).2.card =
      { left := (paintLocals rc titleCy).startX + (paintLocals rc titleCy).gaugeSize + pad,
        top := (paintLocals rc titleCy).startY,
        right := (paintLocals rc titleCy).startX + (paintLocals rc titleCy).gaugeSize + pad
          + (paintLocals rc titleCy).gaugeSize,
        bottom := (paintLocals rc titleCy).startY + (paintLocals rc titleCy).gaugeSize } :=
  ⟨rfl, rfl⟩

/-- C6: for every non-negative client width and height (including `(0, 0)`)
and every non-negative title height, the layout `p` of `PaintUI` has a gauge
size of at least `1`, `startX ≥ pad` and `startY ≥ yTop`, where
`yTop = pad + titleCy + 8`; in particular both coordinates are non-negative. -/
theorem paintLocals_clamped (clientW clientH titleCy : ℤ) (p : PaintLocals)
    (hp : p = paintLocals (clientRect clientW clientH) titleCy)
    (_hW : 0 ≤ clientW) (_hH : 0 ≤ clientH) (hT : 0 ≤ titleCy) :
    1 ≤ p.gaugeSize ∧ pad ≤ p.startX ∧ p.yTop ≤ p.startY ∧
    p.yTop = pad + titleCy + 8 ∧ 0 ≤ p.startX ∧ 0 ≤ p.startY := by
  obtain ⟨m, sx, sy, ⟨hy, -, -⟩, -, -, -, hgs, -, -, hsx, -, hsy⟩ :=
    paintLocals_linear clientW clientH titleCy p hp
  have hpad : pad = 16 := rfl
  rw [hpad]
  omega

/-- The hypotheses of `paintLocals_clamped` hold for the empty client area
`(0, 0)` and title height `0`. -/
theorem paintLocals_clamped_witness :
    (0 : ℤ) ≤ 0 ∧
    (1 ≤ (paintLocals (clientRect 0 0) 0).gaugeSize ∧
     pad ≤ (paintLocals (clientRect 0 0) 0).startX ∧
     (paintLocals (clientRect 0 0) 0).yTop ≤ (paintLocals (clientRect 0 0) 0).startY ∧
     (paintLocals (clientRect 0 0) 0).yTop = pad + 0 + 8 ∧
     0 ≤ (paintLocals (clientRect 0 0) 0).startX ∧
     0 ≤ (paintLocals (clientRect 0 0) 0).startY) :=
  ⟨le_refl 0,
    paintLocals_clamped 0 0 0 (paintLocals (clientRect 0 0) 0) rfl
      (le_refl 0) (le_refl 0) (le_refl 0)⟩

/-- C7: with `pad = 16`, for every `cell ≥ 1` and title height `≥ 0`, a
client area of width `2 * cell + 3 * pad` and height `yTop + cell + pad` is
laid out with `gaugeSize = cell`, `startX = pad`, `startY = yTop`; the second
gauge is drawn at `startX + gaugeSize + pad`, so the right edge of the first
card and the left edge of the second are exactly `pad` apart. -/
theorem paintLocals_exact_fit (g : Globals) (cell titleCy : ℤ)
    (p : PaintLocals) (cpu ram : GaugeDrawing)
    (hp : p = paintLocals
      (clientRect (2 * cell + 3 * pad) (pad + titleCy + 8 + cell + pad)) titleCy)
    (hui : (cpu, ram) = PaintUI g
      (clientRect (2 * cell + 3 * pad) (pad + titleCy + 8 + cell + pad)) titleCy)
    (hcell : 1 ≤ cell) (_hT : 0 ≤ titleCy) :
    pad = 16 ∧ p.yTop = pad + titleCy + 8 ∧
    p.gaugeSize = cell ∧ p.startX = pad ∧ p.startY = p.yTop ∧
    cpu.card.left = p.startX ∧ cpu.card.right = p.startX + p.gaugeSize ∧
    ram.card.left = p.startX + p.gaugeSize + pad ∧
    ram.card.left - cpu.card.right = pad := by
  obtain ⟨hc1, hc2⟩ := PaintUI_cards g
    (clientRect (2 * cell + 3 * pad) (pad + titleCy + 8 + cell + pad)) titleCy
  rw [← hui, ← hp] at hc1 hc2
  simp only at hc1 hc2
  rw [hc1, hc2]
  have hpad : pad = 16 := rfl
  rw [hpad] at hp ⊢
  obtain ⟨m, sx, sy, ⟨hy, -, -⟩, hmw, ⟨hmh, hah⟩, ⟨-, hm⟩, hgs, htw, hsx', hsx, hsy', hsy⟩ :=
    paintLocals_linear (2 * cell + 3 * 16) (16 + titleCy + 8 + cell + 16) titleCy p hp
  have e1 : p.maxWPerGauge = cell ∧ p.maxH = cell ∧ m = cell ∧ p.gaugeSize = cell := by
    clear hsx' hsx hsy' hsy htw hc1 hc2
    omega
  have e2 : sx = 16 ∧ sy = 0 := by
    clear hmw hm hgs hsx hsy hc1 hc2
    omega
  clear hmw hm hsx' hsy'
  refine ⟨rfl, ?_⟩
  simp only [true_and]
  omega

/-- The hypotheses of `paintLocals_exact_fit` hold for `cell = 220` and title
height `40`. -/
theorem paintLocals_exact_fit_witness :
    (1 : ℤ) ≤ 220 ∧ (0 : ℤ) ≤ 40 ∧
    (pad = 16 ∧
     (paintLocals (clientRect (2 * 220 + 3 * pad) (pad + 40 + 8 + 220 + pad)) 40).yTop
        = pad + 40 + 8 ∧
     (paintLocals (clientRect (2 * 220 + 3 * pad) (pad + 40 + 8 + 220 + pad)) 40).gaugeSize
        = 220 ∧
     (paintLocals (clientRect (2 * 220 + 3 * pad) (pad + 40 + 8 + 220 + pad)) 40).startX
        = pad ∧
     (paintLocals (clientRect (2 * 220 + 3 * pad) (pad + 40 + 8 + 220 + pad)) 40).startY
        = (paintLocals (clientRect (2 * 220 + 3 * pad) (pad + 40 + 8 + 220 + pad)) 40).yTop ∧
     (PaintUI (Globals.fresh true true)
        (clientRect (2 * 220 + 3 * pad) (pad + 40 + 8 + 220 + pad)) 40).1.card.left
        = (paintLocals (clientRect (2 * 220 + 3 * pad) (pad + 40 + 8 + 220 + pad)) 40).startX ∧
     (PaintUI (Globals.fresh true true)
        (clientRect (2 * 220 + 3 * pad) (pad + 40 + 8 + 220 + pad)) 40).1.card.right
        = (paintLocals (clientRect (2 * 220 + 3 * pad) (pad + 40 + 8 + 220 + pad)) 40).startX
          + (paintLocals (clientRect (2 * 220 + 3 * pad)
              (pad + 40 + 8 + 220 + pad)) 40).gaugeSize ∧
     (PaintUI (Globals.fresh true true)
        (clientRect (2 * 220 + 3 * pad) (pad + 40 + 8 + 220 + pad)) 40).2.card.left
        = (paintLocals (clientRect (2 * 220 + 3 * pad) (pad + 40 + 8 + 220 + pad)) 40).startX
          + (paintLocals (clientRect (2 * 220 + 3 * pad)
              (pad + 40 + 8 + 220 + pad)) 40).gaugeSize + pad ∧
     (PaintUI (Globals.fresh true true)
        (clientRect (2 * 220 + 3 * pad) (pad + 40 + 8 + 220 + pad)) 40).2.card.left -
     (PaintUI (Globals.fresh true true)
        (clientRect (2 * 220 + 3 * pad) (pad + 40 + 8 + 220 + pad)) 40).1.card.right = pad) :=
  ⟨by decide, by decide,
    paintLocals_exact_fit (Globals.fresh true true) 220 40 _ _ _ rfl rfl
      (by decide) (by decide)⟩

/-- C8: when both `maxWPerGauge ≥ 1` and `maxH ≥ 1`, the two cards drawn by
`PaintUI` are squares of the same side `gaugeSize = min maxWPerGauge maxH`,
which fits in both dimensions; the pair runs from `startX ≥ pad` to
`startX + 2 * gaugeSize + pad ≤ clientW - pad` with exactly `pad` between the
cards, and from `startY ≥ yTop` to `startY + gaugeSize ≤ clientH - pad`, the
space above and the space below differing by at most `1`.  For a 700x300
client area and title height 40: `gaugeSize = 220`, `startX = 122`,
`startY = 64`, second card at `x = 358`. -/
theorem paintLocals_fits (g : Globals) (clientW clientH titleCy : ℤ)
    (p : PaintLocals) (cpu ram : GaugeDrawing)
    (hp : p = paintLocals (clientRect clientW clientH) titleCy)
    (hui : (cpu, ram) = PaintUI g (clientRect clientW clientH) titleCy)
    (hmw : 1 ≤ p.maxWPerGauge) (hmh : 1 ≤ p.maxH) :
    (cpu.card.right - cpu.card.left = p.gaugeSize ∧
     cpu.card.bottom - cpu.card.top = p.gaugeSize ∧
     ram.card.right - ram.card.left = p.gaugeSize ∧
     ram.card.bottom - ram.card.top = p.gaugeSize) ∧
    (p.gaugeSize = min p.maxWPerGauge p.maxH ∧
     2 * p.gaugeSize + 3 * pad ≤ clientW ∧
     p.yTop + p.gaugeSize + pad ≤ clientH) ∧
    (cpu.card.left = p.startX ∧ pad ≤ p.startX ∧
     ram.card.left - cpu.card.right = pad ∧
     ram.card.right = p.startX + 2 * p.gaugeSize + pad ∧
     ram.card.right ≤ clientW - pad) ∧
    (cpu.card.top = p.startY ∧ ram.card.top = p.startY ∧ p.yTop ≤ p.startY ∧
     cpu.card.bottom = p.startY + p.gaugeSize ∧
     ram.card.bottom = p.startY + p.gaugeSize ∧
     p.startY + p.gaugeSize ≤ clientH - pad ∧
     |(p.startY - p.yTop) - ((clientH - pad) - (p.startY + p.gaugeSize))| ≤ 1) ∧
    ((paintLocals (clientRect 700 300) 40).gaugeSize = 220 ∧
     (paintLocals (clientRect 700 300) 40).startX = 122 ∧
     (paintLocals (clientRect 700 300) 40).startY = 64 ∧
     (PaintUI g (clientRect 700 300) 40).2.card.left = 358) := by
  obtain ⟨hc1, hc2⟩ := PaintUI_cards g (clientRect clientW clientH) titleCy
  rw [← hui, ← hp] at hc1 hc2
  simp only at hc1 hc2
  rw [hc1, hc2]
  obtain ⟨m, sx, sy, ⟨hy, -, -⟩, hmw', ⟨hmh', hah⟩, ⟨hmin, hm⟩, hgs, htw, hsx', hsx, hsy', hsy⟩ :=
    paintLocals_linear clientW clientH titleCy p hp
  have hpad : pad = 16 := rfl
  rw [← hmin, hpad, abs_le]
  have e1 : p.gaugeSize = m := by
    clear hmw' hsx' hsy' hsx hsy htw hy hmh' hah
    omega
  have e2 : 2 * p.maxWPerGauge ≤ clientW - 48 := by
    clear hsx' hsy' hsx hsy htw hy hmh' hah hgs hm
    omega
  have e3 : 2 * p.gaugeSize + 48 ≤ clientW ∧ p.gaugeSize ≤ p.availableH := by
    clear hmw' hsx' hsy' hsx hsy htw hy hgs
    omega
  clear hgs hm hmw' hmw hmh
  have e4 : 2 * sx ≤ clientW - p.totalWidth ∧ 16 ≤ sx ∧ p.startX = sx := by
    clear hsy' hsy hy hmh' hah
    omega
  clear hsx' hsx
  have e5 : 2 * sy ≤ p.availableH - p.gaugeSize ∧ p.availableH - p.gaugeSize ≤ 2 * sy + 1
      ∧ p.startY = p.yTop + sy := by
    clear htw e4 e2 hy hmh' hah
    omega
  clear hsy' hsy
  refine ⟨?_, ?_, ?_, ?_, ⟨rfl, rfl, rfl, rfl⟩⟩
  · simp only []
    omega
  · omega
  · simp only [true_and]
    omega
  · simp only [true_and]
    omega

/-- The hypotheses of `paintLocals_fits` hold for the 700x300 client area with
title height `40`. -/
theorem paintLocals_fits_witness :
    1 ≤ (paintLocals (clientRect 700 300) 40).maxWPerGauge ∧
    1 ≤ (paintLocals (clientRect 700 300) 40).maxH ∧
    (PaintUI (Globals.fresh true true) (clientRect 700 300) 40).2.card.right ≤ 700 - pad ∧
    (paintLocals (clientRect 700 300) 40).startY
      + (paintLocals (clientRect 700 300) 40).gaugeSize ≤ 300 - pad :=
  have h1 : 1 ≤ (paintLocals (clientRect 700 300) 40).maxWPerGauge := by decide
  have h2 : 1 ≤ (paintLocals (clientRect 700 300) 40).maxH := by decide
  ⟨h1, h2,
    (paintLocals_fits (Globals.fresh true true) 700 300 40 _ _ _ rfl rfl h1 h2).2.2.1.2.2.2.2,
    (paintLocals_fits (Globals.fresh true true) 700 300 40 _ _ _ rfl rfl h1 h2).2.2.2.1.2.2.2.2.2.1⟩

/-! ## Facts about rounding -/

/-- Rounding to the nearest integer moves a number by at most one half. -/
theorem roundHalfEven_abs_sub_le (q : ℚ) : |(roundHalfEven q : ℚ) - q| ≤ 1 / 2 := by
  have h1 : (⌊q⌋ : ℚ) ≤ q := Int.floor_le q
  have h2 : q < (⌊q⌋ : ℚ) + 1 := Int.lt_floor_add_one q
  unfold roundHalfEven
  simp only
  rw [abs_le]
  split_ifs with ha hb hc
  · constructor <;> linarith
  · push_cast; constructor <;> linarith
  · constructor <;> linarith
  · push_cast; constructor <;> linarith

/-- Rounding a non-negative number gives a non-negative integer. -/
theorem roundHalfEven_nonneg (q : ℚ) (hq : 0 ≤ q) : 0 ≤ roundHalfEven q := by
  have h1 : 0 ≤ ⌊q⌋ := Int.floor_nonneg.mpr hq
  unfold roundHalfEven
  simp only
  split_ifs <;> omega

/-- Evaluating `roundHalfEven` away from a tie. -/
theorem roundHalfEven_of_lt (q : ℚ) (m : ℤ) (h1 : (m : ℚ) - 1 / 2 < q)
    (h2 : q < (m : ℚ) + 1 / 2) : roundHalfEven q = m := by
  unfold roundHalfEven
  simp only
  by_cases hm : (m : ℚ) ≤ q
  · have hf : ⌊q⌋ = m := by
      rw [Int.floor_eq_iff]; constructor <;> linarith
    rw [hf]
    have : q - (m : ℚ) < 1 / 2 := by linarith
    rw [if_pos this]
  · have hf : ⌊q⌋ = m - 1 := by
      rw [Int.floor_eq_iff]; push_cast; constructor <;> linarith
    rw [hf]
    have h3 : ¬ (q - ((m - 1 : ℤ) : ℚ) < 1 / 2) := by push_cast; linarith
    have h4 : 1 / 2 < q - ((m - 1 : ℤ) : ℚ) := by push_cast; linarith
    simp only [h3, h4, if_false, if_true]
    omega

/-- Evaluating `roundHalfEven` at a tie below an even integer. -/
theorem roundHalfEven_tie (m : ℤ) (hm : m % 2 = 1) :
    roundHalfEven ((m : ℚ) + 1 / 2) = m + 1 := by
  unfold roundHalfEven
  simp only
  have hf : ⌊(m : ℚ) + 1 / 2⌋ = m := by
    rw [Int.floor_eq_iff]; constructor <;> linarith
  rw [hf]
  have h3 : ¬ ((m : ℚ) + 1 / 2 - (m : ℚ) < 1 / 2) := by linarith
  have h4 : ¬ (1 / 2 < (m : ℚ) + 1 / 2 - (m : ℚ)) := by linarith
  have h5 : ¬ (m % 2 = 0) := by omega
  simp only [h3, h4, h5, if_false]

/-- The unit in the last place is positive. -/
theorem ulp_pos (q : ℚ) : 0 < ulp q := by
  unfold ulp
  positivity

/-- Rounding to a double moves a number by at most half a unit in the last
place. -/
theorem roundDouble_abs_sub_le (q : ℚ) : |roundDouble q - q| ≤ ulp q / 2 := by
  have hu := ulp_pos q
  have h := roundHalfEven_abs_sub_le (q / ulp q)
  unfold roundDouble
  have e : (roundHalfEven (q / ulp q) : ℚ) * ulp q - q
      = ((roundHalfEven (q / ulp q) : ℚ) - q / ulp q) * ulp q := by
    field_simp
  rw [e, abs_mul, abs_of_pos hu]
  calc |(roundHalfEven (q / ulp q) : ℚ) - q / ulp q| * ulp q
      ≤ 1 / 2 * ulp q := mul_le_mul_of_nonneg_right h (le_of_lt hu)
    _ = ulp q / 2 := by ring

/-- The unit in the last place is at most `2^-52` times the magnitude, or is
that of the subnormal doubles, `2^-1074`. -/
theorem ulp_le (q : ℚ) (hq0 : q ≠ 0) :
    ulp q ≤ (2 : ℚ) ^ (-52 : ℤ) * |q| + (2 : ℚ) ^ (-1074 : ℤ) := by
  unfold ulp binade
  have h2 : (1 : ℚ) < 2 := by norm_num
  rcases le_total (Int.log 2 |q|) (-1022) with h | h
  · rw [max_eq_right h]
    have : (0 : ℚ) ≤ (2 : ℚ) ^ (-52 : ℤ) * |q| := by positivity
    have e : (-1022 : ℤ) - 52 = -1074 := by norm_num
    rw [e]
    linarith
  · rw [max_eq_left h]
    have hq : 0 < |q| := abs_pos.mpr hq0
    have hl := Int.zpow_log_le_self (b := 2) (by norm_num) hq
    have e : (2 : ℚ) ^ (Int.log 2 |q| - 52) = (2 : ℚ) ^ (-52 : ℤ) * (2 : ℚ) ^ Int.log 2 |q| := by
      rw [← zpow_add₀ (by norm_num : (2 : ℚ) ≠ 0)]
      congr 1
      ring
    rw [e]
    have hp : (0 : ℚ) < (2 : ℚ) ^ (-52 : ℤ) := by positivity
    have hs : (0 : ℚ) < (2 : ℚ) ^ (-1074 : ℤ) := by positivity
    have := mul_le_mul_of_nonneg_left hl (le_of_lt hp)
    push_cast at this
    linarith

/-- The standard error bound of rounding to nearest: relative `2^-53`, plus
`2^-1075` for the subnormal range. -/
theorem roundDouble_error (q : ℚ) :
    |roundDouble q - q| ≤ (2 : ℚ) ^ (-53 : ℤ) * |q| + (2 : ℚ) ^ (-1075 : ℤ) := by
  by_cases hq0 : q = 0
  · subst hq0
    have h0 : roundDouble 0 = 0 := by simp [roundDouble, roundHalfEven]
    rw [h0]
    simp only [sub_zero, abs_zero, mul_zero, zero_add]
    positivity
  have h1 := roundDouble_abs_sub_le q
  have h2 := ulp_le q hq0
  have e1 : (2 : ℚ) ^ (-53 : ℤ) = (2 : ℚ) ^ (-52 : ℤ) / 2 := by
    rw [show (-53 : ℤ) = -52 - 1 by norm_num, zpow_sub₀ (by norm_num : (2 : ℚ) ≠ 0)]
    norm_num
  have e2 : (2 : ℚ) ^ (-1075 : ℤ) = (2 : ℚ) ^ (-1074 : ℤ) / 2 := by
    rw [show (-1075 : ℤ) = -1074 - 1 by norm_num, zpow_sub₀ (by norm_num : (2 : ℚ) ≠ 0)]
    norm_num
  rw [e1, e2]
  generalize (2 : ℚ) ^ (-52 : ℤ) = c at *
  generalize (2 : ℚ) ^ (-1074 : ℤ) = d at *
  have e3 : c / 2 * |q| + d / 2 = (c * |q| + d) / 2 := by ring
  rw [e3]
  linarith

/-- Rounding a non-negative number to a double gives a non-negative double. -/
theorem roundDouble_nonneg (q : ℚ) (hq : 0 ≤ q) : 0 ≤ roundDouble q := by
  unfold roundDouble
  have hu := ulp_pos q
  have h := roundHalfEven_nonneg (q / ulp q) (div_nonneg hq (le_of_lt hu))
  have h' : (0 : ℚ) ≤ (roundHalfEven (q / ulp q) : ℚ) := by exact_mod_cast h
  exact mul_nonneg h' (le_of_lt hu)

/-- Evaluating `binade`: the exponent of a number of known binade. -/
theorem binade_eq (q : ℚ) (e : ℤ) (he : -1022 ≤ e) (h1 : (2 : ℚ) ^ e ≤ |q|)
    (h2 : |q| < (2 : ℚ) ^ (e + 1)) : binade q = e := by
  have hq : 0 < |q| := lt_of_lt_of_le (by positivity) h1
  have ha : e ≤ Int.log 2 |q| := by
    rw [← Int.zpow_le_iff_le_log (by norm_num) hq]
    exact_mod_cast h1
  have hb : Int.log 2 |q| < e + 1 := by
    rw [← Int.lt_zpow_iff_log_lt (by norm_num) hq]
    exact_mod_cast h2
  unfold binade
  rw [max_eq_left (by omega)]
  omega

/-- Evaluating `roundDouble` away from a tie: `q` in the binade of exponent `e`
rounds to `m * 2^(e-52)` when `q / 2^(e-52)` is within a half of `m`. -/
theorem roundDouble_eq (q : ℚ) (e m : ℤ) (he : -1022 ≤ e) (h1 : (2 : ℚ) ^ e ≤ |q|)
    (h2 : |q| < (2 : ℚ) ^ (e + 1))
    (h3 : (m : ℚ) - 1 / 2 < q / (2 : ℚ) ^ (e - 52))
    (h4 : q / (2 : ℚ) ^ (e - 52) < (m : ℚ) + 1 / 2) :
    roundDouble q = (m : ℚ) * (2 : ℚ) ^ (e - 52) := by
  unfold roundDouble ulp
  rw [binade_eq q e he h1 h2, roundHalfEven_of_lt _ m h3 h4]

/-- Evaluating `roundDouble` at a tie: `q` in the binade of exponent `e`
rounds to `(m + 1) * 2^(e-52)` when `q / 2^(e-52) = m + 1/2` with `m` odd. -/
theorem roundDouble_tie (q : ℚ) (e m : ℤ) (he : -1022 ≤ e) (h1 : (2 : ℚ) ^ e ≤ |q|)
    (h2 : |q| < (2 : ℚ) ^ (e + 1))
    (h3 : q / (2 : ℚ) ^ (e - 52) = (m : ℚ) + 1 / 2) (hm : m % 2 = 1) :
    roundDouble q = ((m + 1 : ℤ) : ℚ) * (2 : ℚ) ^ (e - 52) := by
  unfold roundDouble ulp
  rw [binade_eq q e he h1 h2, h3, roundHalfEven_tie m hm]

/-! ## Facts about the gauge -/

/-- The character of a decimal digit is a digit and stands for it. -/
theorem digitChar_spec (k : ℕ) (hk : k < 10) :
    (Nat.digitChar k).isDigit = true ∧ digitValue (Nat.digitChar k) = k := by
  interval_cases k <;> exact ⟨by decide, by decide⟩

/-- Reading back the digits written by `Nat.toDigitsCore`. -/
theorem toDigitsCore_decode (fuel : ℕ) :
    ∀ (n : ℕ) (ds : List Char), n < fuel →
      (Nat.toDigitsCore 10 fuel n ds).foldl (fun acc c => 10 * acc + digitValue c) 0
        = ds.foldl (fun acc c => 10 * acc + digitValue c) n := by
  induction fuel with
  | zero => intro n ds h; omega
  | succ f ih =>
    intro n ds h
    have hd := (digitChar_spec (n % 10) (Nat.mod_lt n (by norm_num))).2
    simp only [Nat.toDigitsCore]
    by_cases h0 : n / 10 = 0
    · simp only [h0, if_true, List.foldl_cons, hd]
      congr 1
      omega
    · simp only [h0, if_false]
      rw [ih (n / 10) _ (by omega)]
      simp only [List.foldl_cons, hd]
      congr 1
      omega

/-- Every character written by `Nat.toDigitsCore` in front of `ds` is a digit. -/
theorem toDigitsCore_isDigit (fuel : ℕ) :
    ∀ (n : ℕ) (ds : List Char), (∀ c ∈ ds, c.isDigit = true) →
      ∀ c ∈ Nat.toDigitsCore 10 fuel n ds, c.isDigit = true := by
  induction fuel with
  | zero => intro n ds h c hc; exact h c (by simpa [Nat.toDigitsCore] using hc)
  | succ f ih =>
    intro n ds h c hc
    have hd := (digitChar_spec (n % 10) (Nat.mod_lt n (by norm_num))).1
    have hds : ∀ c ∈ Nat.digitChar (n % 10) :: ds, c.isDigit = true := by
      intro c hc
      rcases List.mem_cons.mp hc with rfl | hc
      · exact hd
      · exact h c hc
    simp only [Nat.toDigitsCore] at hc
    by_cases h0 : n / 10 = 0
    · simp only [h0, if_true] at hc
      exact hds c hc
    · simp only [h0, if_false] at hc
      exact ih (n / 10) _ hds c hc

/-- The decimal digits of `n`: they are digits, there is at least one, they
denote `n`, and a number below `10^e` has at most `e` of them. -/
theorem toDigits_spec (n : ℕ) :
    (∀ c ∈ Nat.toDigits 10 n, c.isDigit = true) ∧ Nat.toDigits 10 n ≠ [] ∧
    decimalValue (Nat.toDigits 10 n) = n ∧
    (∀ e : ℕ, 0 < e → n < 10 ^ e → (Nat.toDigits 10 n).length ≤ e) := by
  refine ⟨?_, ?_, ?_, ?_⟩
  · exact toDigitsCore_isDigit (n + 1) n [] (by simp)
  · intro h
    have := toDigitsCore_decode (n + 1) n [] (by omega)
    unfold Nat.toDigits at h
    rw [h] at this
    simp only [List.foldl_nil] at this
    have h2 : (Nat.toDigitsCore 10 (n + 1) n []).length = 0 := by rw [h]; rfl
    simp only [Nat.toDigitsCore] at h2
    split_ifs at h2
    · simp at h2
    · rw [Nat.toDigitsCore_lens_eq] at h2
      omega
  · unfold decimalValue Nat.toDigits
    rw [toDigitsCore_decode (n + 1) n [] (by omega)]
    rfl
  · intro e he hn
    exact Nat.toDigitsCore_length 10 (by norm_num) (n + 1) n e hn he

/-- A number below ten is written with its one digit. -/
theorem toDigits_of_lt_ten (k : ℕ) (hk : k < 10) :
    Nat.toDigits 10 k = [Nat.digitChar k] := by
  interval_cases k <;> rfl

/-- The characters written for `%.1f` for a non-negative value: the digits of
the integer part and the digit of the tenths of the nearest number of tenths
`n`. -/
theorem formatF1_of_nonneg (value : ℚ) (hv : 0 ≤ value) :
    formatF1 value =
      Nat.toDigits 10 ((roundHalfEven (value * 10)).toNat / 10)
        ++ ['.', Nat.digitChar ((roundHalfEven (value * 10)).toNat % 10)] := by
  unfold formatF1
  have h0 : ¬ value < 0 := not_lt.mpr hv
  simp only [abs_of_nonneg hv, h0, if_false, List.nil_append]
  rw [toDigits_of_lt_ten _ (Nat.mod_lt _ (by norm_num))]
  simp

/-- The nearest number of tenths of a non-negative value is within a
twentieth of it. -/
theorem nearest_tenth (value : ℚ) (hv : 0 ≤ value) :
    |value - ((roundHalfEven (value * 10)).toNat : ℚ) / 10| ≤ 1 / 20 := by
  have h1 := roundHalfEven_abs_sub_le (value * 10)
  have h2 := roundHalfEven_nonneg (value * 10) (by positivity)
  have h3 : (((roundHalfEven (value * 10)).toNat : ℤ) : ℚ) = (roundHalfEven (value * 10) : ℚ) := by
    rw [Int.toNat_of_nonneg h2]
  have h4 : ((roundHalfEven (value * 10)).toNat : ℚ) = (roundHalfEven (value * 10) : ℚ) := by
    rw [← h3]; norm_cast
  rw [h4]
  rw [abs_le] at h1 ⊢
  constructor <;> linarith [h1.1, h1.2]

/-- The readout printed for a number is never the text `N/A`: it ends in a
percent sign, or, when cut by the buffer, is 63 characters long. -/
theorem printfPercent_ne_NA (value : ℚ) : printfPercent value ≠ "N/A" := by
  intro h
  unfold printfPercent at h
  have h' : (formatF1 value ++ ['%']).take 63 = ['N', '/', 'A'] := by
    have := congrArg String.data h
    simpa using this
  have hlen : ((formatF1 value ++ ['%']).take 63).length = 3 := by rw [h']; rfl
  rw [List.length_take] at hlen
  have hfull : (formatF1 value ++ ['%']).take 63 = formatF1 value ++ ['%'] :=
    List.take_of_length_le (by omega)
  rw [hfull] at h'
  have h2 := congrArg List.getLast? h'
  simp at h2

/-- The readout of a non-negative value whose nearest number of tenths is `n`:
the decimal digits of `n / 10`, a point, the digit `n % 10` and a percent
sign, cut to 63 characters. -/
theorem printfPercent_of_tenths (value : ℚ) (n : ℕ) (hv : 0 ≤ value)
    (hn : (roundHalfEven (value * 10)).toNat = n) :
    printfPercent value =
      String.mk ((Nat.toDigits 10 (n / 10) ++ ['.', Nat.digitChar (n % 10), '%']).take 63) := by
  unfold printfPercent
  rw [formatF1_of_nonneg value hv, hn]
  simp

/-- The readout of a non-negative value that is not halfway between two
numbers of tenths. -/
theorem printfPercent_eval (value : ℚ) (n : ℕ) (hv : 0 ≤ value)
    (h1 : (n : ℚ) - 1 / 2 < value * 10) (h2 : value * 10 < (n : ℚ) + 1 / 2) :
    printfPercent value =
      String.mk ((Nat.toDigits 10 (n / 10) ++ ['.', Nat.digitChar (n % 10), '%']).take 63) := by
  apply printfPercent_of_tenths value n hv
  rw [roundHalfEven_of_lt (value * 10) (n : ℤ) (by exact_mod_cast h1) (by exact_mod_cast h2)]
  simp

/-- C9: the foreground arc of `DrawGauge` starts at `-90` degrees and sweeps
`360 * clamp(value, 0, 100) / 100` degrees, so `0`, `180` and `360` degrees for
the values `0`, `50` and `100`; for an unavailable value (negative, such as the
`-1` of a failed read) the sweep is `0` and the readout is `N/A`; for every
present value (`0` included) the readout is never `N/A` but the value printed
with `%.1f%%`: with `n` a number of tenths within `0.05` of the value, the
decimal digits of `n / 10`, a point, the digit `n % 10` and a percent sign (cut
to the 63 characters of the buffer, which no value below `10^59` reaches); so
`0.0%`, `50.0%`, `100.0%`, `29.6%`, `12.3%` and `100.0%` for the values `0`,
`50`, `100`, `29.6`, `12.34` and `99.96`. -/
theorem DrawGauge_sweep_and_readout (x y size : ℤ) :
    (∀ value : ℚ,
      (DrawGauge x y size value).foreground.sweepDeg = 360 * (max 0 (min value 100)) / 100 ∧
      (DrawGauge x y size value).foreground.startDeg = -90) ∧
    ((DrawGauge x y size 0).foreground.sweepDeg = 0 ∧
     (DrawGauge x y size 50).foreground.sweepDeg = 180 ∧
     (DrawGauge x y size 100).foreground.sweepDeg = 360) ∧
    ((DrawGauge x y size (-1)).foreground.sweepDeg = 0 ∧
     (DrawGauge x y size (-1)).vbuf = "N/A") ∧
    (∀ value : ℚ, isUnavailable value →
      (DrawGauge x y size value).foreground.sweepDeg = 0 ∧
      (DrawGauge x y size value).vbuf = "N/A") ∧
    (∀ value : ℚ, 0 ≤ value →
      (DrawGauge x y size value).vbuf = printfPercent value ∧
      (DrawGauge x y size value).vbuf ≠ "N/A" ∧
      ∃ n : ℕ, |value - (n : ℚ) / 10| ≤ 1 / 20 ∧
        (DrawGauge x y size value).vbuf =
          String.mk ((Nat.toDigits 10 (n / 10)
            ++ ['.', Nat.digitChar (n % 10), '%']).take 63) ∧
        (value < 10 ^ 59 →
          (DrawGauge x y size value).vbuf =
            String.mk (Nat.toDigits 10 (n / 10) ++ ['.', Nat.digitChar (n % 10), '%'])) ∧
        (∀ c ∈ Nat.toDigits 10 (n / 10), c.isDigit = true) ∧
        Nat.toDigits 10 (n / 10) ≠ [] ∧
        decimalValue (Nat.toDigits 10 (n / 10)) = n / 10 ∧
        (Nat.digitChar (n % 10)).isDigit = true ∧
        digitValue (Nat.digitChar (n % 10)) = n % 10) ∧
    ((DrawGauge x y size 0).vbuf = "0.0%" ∧
     (DrawGauge x y size 50).vbuf = "50.0%" ∧
     (DrawGauge x y size 100).vbuf = "100.0%" ∧
     (DrawGauge x y size (148 / 5)).vbuf = "29.6%" ∧
     (DrawGauge x y size (617 / 50)).vbuf = "12.3%" ∧
     (DrawGauge x y size (2499 / 25)).vbuf = "100.0%") := by
  have hsweep : ∀ value : ℚ,
      (DrawGauge x y size value).foreground.sweepDeg
        = 360 * (max 0 (min value 100)) / 100 := by
    intro value
    simp only [DrawGauge]
    by_cases h0 : value < 0
    · have h1 : ¬ (0 : ℚ) > 100 := by norm_num
      have h2 : min value 100 = value := min_eq_left (by linarith)
      have h3 : max 0 value = 0 := max_eq_left (le_of_lt h0)
      simp only [h0, if_true, h1, if_false, h2, h3]
      norm_num
    · by_cases h100 : value > 100
      · have h2 : min value 100 = 100 := min_eq_right (le_of_lt h100)
        simp only [h0, if_false, h100, if_true, h2]
        norm_num
      · have h2 : min value 100 = value := min_eq_left (not_lt.mp h100)
        have h3 : max 0 value = value := max_eq_right (not_lt.mp h0)
        simp only [h0, if_false, h100, h2, h3]
        norm_num
        ring
  have hneg : ∀ value : ℚ, value < 0 →
      (DrawGauge x y size value).foreground.sweepDeg = 0 ∧
      (DrawGauge x y size value).vbuf = "N/A" := by
    intro value h
    refine ⟨?_, ?_⟩
    · rw [hsweep, min_eq_left (by linarith), max_eq_left (le_of_lt h)]
      norm_num
    · simp [DrawGauge, h]
  have hpos : ∀ value : ℚ, 0 ≤ value →
      (DrawGauge x y size value).vbuf = printfPercent value := by
    intro value h
    simp [DrawGauge, not_lt.mpr h]
  have hval : ∀ (value : ℚ) (n : ℕ), 0 ≤ value →
      (n : ℚ) - 1 / 2 < value * 10 → value * 10 < (n : ℚ) + 1 / 2 →
      (DrawGauge x y size value).vbuf =
        String.mk ((Nat.toDigits 10 (n / 10)
          ++ ['.', Nat.digitChar (n % 10), '%']).take 63) := by
    intro value n hv h1 h2
    rw [hpos value hv]
    exact printfPercent_eval value n hv h1 h2
  refine ⟨fun value => ⟨hsweep value, rfl⟩, ⟨?_, ?_, ?_⟩, hneg (-1) (by norm_num),
    fun value h => hneg value h, ?_, ⟨?_, ?_, ?_, ?_, ?_, ?_⟩⟩
  · rw [hsweep]; norm_num
  · rw [hsweep]; norm_num
  · rw [hsweep]; norm_num
  · intro value h
    have hfmt := printfPercent_of_tenths value _ h rfl
    obtain ⟨d1, d2, d3, d4⟩ := toDigits_spec ((roundHalfEven (value * 10)).toNat / 10)
    obtain ⟨d5, d6⟩ := digitChar_spec ((roundHalfEven (value * 10)).toNat % 10)
      (Nat.mod_lt _ (by norm_num))
    refine ⟨hpos value h, ?_, (roundHalfEven (value * 10)).toNat, nearest_tenth value h, ?_,
      ?_, d1, d2, d3, d5, d6⟩
    · rw [hpos value h]
      exact printfPercent_ne_NA value
    · rw [hpos value h]
      exact hfmt
    · intro hlt
      rw [hpos value h, hfmt]
      congr 1
      apply List.take_of_length_le
      have hn := nearest_tenth value h
      rw [abs_le] at hn
      have hq : ((roundHalfEven (value * 10)).toNat : ℚ) < 10 ^ 60 + 1 := by
        have e : (10 : ℚ) ^ 60 = 10 * 10 ^ 59 := by norm_num
        linarith [hn.1, hn.2]
      have hnat : (roundHalfEven (value * 10)).toNat < 10 ^ 60 + 1 := by exact_mod_cast hq
      have hdiv : (roundHalfEven (value * 10)).toNat / 10 < 10 ^ 60 := by
        have : (10 : ℕ) ^ 60 + 1 ≤ 10 * 10 ^ 60 := by norm_num
        exact Nat.div_lt_of_lt_mul (by omega)
      have hlen := d4 60 (by norm_num) hdiv
      simp only [List.length_append, List.length_cons, List.length_nil]
      omega
  · rw [hval 0 0 (le_refl 0) (by norm_num) (by norm_num)]; decide
  · rw [hval 50 500 (by norm_num) (by norm_num) (by norm_num)]; decide
  · rw [hval 100 1000 (by norm_num) (by norm_num) (by norm_num)]; decide
  · rw [hval (148 / 5) 296 (by norm_num) (by norm_num) (by norm_num)]; decide
  · rw [hval (617 / 50) 123 (by norm_num) (by norm_num) (by norm_num)]; decide
  · rw [hval (2499 / 25) 1000 (by norm_num) (by norm_num) (by norm_num)]; decide

/-- The hypotheses inside `DrawGauge_sweep_and_readout` hold for the values
`-1` and `50`. -/
theorem DrawGauge_sweep_and_readout_witness :
    isUnavailable (-1) ∧ (0 : ℚ) ≤ 50 ∧
    ((DrawGauge 122 64 220 (-1)).foreground.sweepDeg = 0 ∧
      (DrawGauge 122 64 220 (-1)).vbuf = "N/A") ∧
    (DrawGauge 122 64 220 50).vbuf ≠ "N/A" ∧
    (DrawGauge 122 64 220 50).vbuf = "50.0%" :=
  have h1 : isUnavailable (-1) := by norm_num [isUnavailable]
  have h2 : (0 : ℚ) ≤ 50 := by norm_num
  ⟨h1, h2,
    (DrawGauge_sweep_and_readout 122 64 220).2.2.2.1 (-1) h1,
    ((DrawGauge_sweep_and_readout 122 64 220).2.2.2.2.1 50 h2).2.1,
    (DrawGauge_sweep_and_readout 122 64 220).2.2.2.2.2.2.1⟩

/-! ## Smoothing in double arithmetic -/

/-- The double nearest to `0.4`. -/
theorem roundDouble_two_fifths :
    roundDouble 0.4 = 3602879701896397 / 9007199254740992 := by
  rw [roundDouble_eq 0.4 (-2) 7205759403792794 (by norm_num)
    (by rw [abs_of_pos (by norm_num)]; norm_num)
    (by rw [abs_of_pos (by norm_num)]; norm_num)
    (by norm_num) (by norm_num)]
  norm_num

/-- The double nearest to `0.6`. -/
theorem roundDouble_three_fifths :
    roundDouble 0.6 = 5404319552844595 / 9007199254740992 := by
  rw [roundDouble_eq 0.6 (-1) 5404319552844595 (by norm_num)
    (by rw [abs_of_pos (by norm_num)]; norm_num)
    (by rw [abs_of_pos (by norm_num)]; norm_num)
    (by norm_num) (by norm_num)]
  norm_num

/-- The double nearest to `0.9`. -/
theorem roundDouble_nine_tenths :
    roundDouble (9 / 10) = 8106479329266893 / 9007199254740992 := by
  rw [roundDouble_eq (9 / 10) (-1) 8106479329266893 (by norm_num)
    (by rw [abs_of_pos (by norm_num)]; norm_num)
    (by rw [abs_of_pos (by norm_num)]; norm_num)
    (by norm_num) (by norm_num)]
  norm_num

/-- One smoothing step in double arithmetic from the carried EMA `0.9` with
the raw reading `0.9` (both the double nearest to `0.9`): the result is the
next double above. -/
theorem emaStepDouble_nine_tenths :
    emaStepDouble (8106479329266893 / 9007199254740992)
      (8106479329266893 / 9007199254740992) = 4053239664633447 / 4503599627370496 := by
  have h0 : ¬ ((8106479329266893 : ℚ) / 9007199254740992 < 0) := by norm_num
  unfold emaStepDouble
  rw [if_neg h0, roundDouble_two_fifths, roundDouble_three_fifths]
  have p1 : roundDouble (3602879701896397 / 9007199254740992
      * (8106479329266893 / 9007199254740992)) = 6485183463413515 / 18014398509481984 := by
    rw [roundDouble_eq _ (-2) 6485183463413515 (by norm_num)
      (by rw [abs_of_pos (by norm_num)]; norm_num)
      (by rw [abs_of_pos (by norm_num)]; norm_num)
      (by norm_num) (by norm_num)]
    norm_num
  have p2 : roundDouble (5404319552844595 / 9007199254740992
      * (8106479329266893 / 9007199254740992)) = 607985949695017 / 1125899906842624 := by
    rw [roundDouble_eq _ (-1) 4863887597560136 (by norm_num)
      (by rw [abs_of_pos (by norm_num)]; norm_num)
      (by rw [abs_of_pos (by norm_num)]; norm_num)
      (by norm_num) (by norm_num)]
    norm_num
  rw [p1, p2]
  rw [roundDouble_tie _ (-1) 8106479329266893 (by norm_num)
    (by rw [abs_of_pos (by norm_num)]; norm_num)
    (by rw [abs_of_pos (by norm_num)]; norm_num)
    (by norm_num) (by norm_num)]
  norm_num

/-- The error bound of `roundDouble_error` for a number of magnitude at most
`M`, with the relative error `2^-53` written as a numeral. -/
theorem roundDouble_bounds (q M : ℚ) (hM : |q| ≤ M) :
    q - (M / 9007199254740992 + (2 : ℚ) ^ (-1075 : ℤ)) ≤ roundDouble q ∧
    roundDouble q ≤ q + (M / 9007199254740992 + (2 : ℚ) ^ (-1075 : ℤ)) := by
  have h := roundDouble_error q
  have e : (2 : ℚ) ^ (-53 : ℤ) = 1 / 9007199254740992 := by norm_num
  rw [e, abs_le] at h
  constructor <;> linarith [h.1, h.2]

/-- The smallest subnormal spacing is negligible. -/
theorem subnormal_small : (0 : ℚ) < (2 : ℚ) ^ (-1075 : ℤ) ∧
    (2 : ℚ) ^ (-1075 : ℤ) ≤ 1 / 1267650600228229401496703205376 := by
  constructor
  · positivity
  · have h : (2 : ℚ) ^ (-1075 : ℤ) ≤ (2 : ℚ) ^ (-100 : ℤ) :=
      zpow_le_zpow_right₀ (by norm_num) (by norm_num)
    have e : (2 : ℚ) ^ (-100 : ℤ) = 1 / 1267650600228229401496703205376 := by norm_num
    rw [e] at h
    exact h

/-- One smoothing step in double arithmetic: with readings of magnitude at
most `H`, the result stays within `H * 2^-50` of any interval inside
`[-H, H]` that contains the raw reading and, up to the same slack, the carried
EMA. -/
theorem emaStepDouble_between (H ema r lo hi : ℚ) (hH : 1 ≤ H)
    (hloH : -H ≤ lo) (hhiH : hi ≤ H) (hlo : lo ≤ r) (hhi : r ≤ hi)
    (helo : lo - H / 1125899906842624 ≤ ema) (hehi : ema ≤ hi + H / 1125899906842624) :
    lo - H / 1125899906842624 ≤ emaStepDouble ema r ∧
    emaStepDouble ema r ≤ hi + H / 1125899906842624 := by
  unfold emaStepDouble
  by_cases hneg : ema < 0
  · rw [if_pos hneg]
    constructor <;> linarith
  rw [if_neg hneg, roundDouble_two_fifths, roundDouble_three_fifths]
  have hm1 : |3602879701896397 / 9007199254740992 * r|
      ≤ 3602879701896397 / 9007199254740992 * H := by
    rw [abs_le]; constructor <;> linarith
  have hm2 : |5404319552844595 / 9007199254740992 * ema|
      ≤ 5404319552844595 / 9007199254740992 * (H + H / 1125899906842624) := by
    rw [abs_le]; constructor <;> linarith
  obtain ⟨a1, a2⟩ := roundDouble_bounds _ _ hm1
  obtain ⟨b1, b2⟩ := roundDouble_bounds _ _ hm2
  obtain ⟨s0, s1⟩ := subnormal_small
  have hm3 : |roundDouble (3602879701896397 / 9007199254740992 * r)
      + roundDouble (5404319552844595 / 9007199254740992 * ema)| ≤ 2 * H := by
    generalize (2 : ℚ) ^ (-1075 : ℤ) = s at *
    rw [abs_le]; constructor <;> linarith
  obtain ⟨c1, c2⟩ := roundDouble_bounds _ _ hm3
  generalize (2 : ℚ) ^ (-1075 : ℤ) = s at *
  generalize roundDouble (3602879701896397 / 9007199254740992 * r) = p1 at *
  generalize roundDouble (5404319552844595 / 9007199254740992 * ema) = p2 at *
  generalize roundDouble (p1 + p2) = y at *
  constructor <;> linarith

/-- The EMA stored by a tick in double arithmetic is one step of the
recurrence. -/
theorem TakeSampleDouble_ema (g : Globals) (os : OsReply) :
    (TakeSampleDouble g os).g_cpuEMA = emaStepDouble g.g_cpuEMA (ReadCpuUsage g os) := rfl

/-- The value published by a tick in double arithmetic is the EMA it stores. -/
theorem TakeSampleDouble_cpu (g : Globals) (os : OsReply) :
    (TakeSampleDouble g os).g_cpu = emaStepDouble g.g_cpuEMA (ReadCpuUsage g os) := rfl

/-- The published CPU values in double arithmetic are the recurrence iterated
over the raw readings. -/
theorem cpuTraceDouble_eq_emaTraceDouble (ticks : List OsReply) :
    ∀ g : Globals,
      cpuTraceDouble g ticks = emaTraceDouble g.g_cpuEMA (rawTraceDouble g ticks) := by
  induction ticks with
  | nil => intro g; rfl
  | cons os rest ih =>
    intro g
    simp only [cpuTraceDouble, rawTraceDouble, emaTraceDouble, ih, TakeSampleDouble_ema,
      TakeSampleDouble_cpu]

/-- One raw reading per tick. -/
theorem rawTraceDouble_length (ticks : List OsReply) :
    ∀ g : Globals, (rawTraceDouble g ticks).length = ticks.length := by
  induction ticks with
  | nil => intro g; rfl
  | cons os rest ih => intro g; simp [rawTraceDouble, ih]

/-- The raw readings do not depend on the arithmetic: a tick leaves the PDH
handles alone. -/
theorem rawTraceDouble_eq_map (ticks : List OsReply) :
    ∀ g : Globals, rawTraceDouble g ticks = ticks.map (ReadCpuUsage g) := by
  induction ticks with
  | nil => intro g; rfl
  | cons os rest ih =>
    intro g
    rw [rawTraceDouble, ih, List.map_cons]
    rfl

/-- In double arithmetic the smoothed outputs stay within `H * 2^-50` of the
running minimum and maximum, for readings of magnitude at most `H` and a run
that starts from a carried EMA within that slack of `[lo, hi]`. -/
theorem emaTraceDouble_between (H : ℚ) (hH : 1 ≤ H) (raws : List ℚ) :
    ∀ (ema lo hi : ℚ), -H ≤ lo → hi ≤ H →
    lo - H / 1125899906842624 ≤ ema → ema ≤ hi + H / 1125899906842624 →
    (∀ r ∈ raws, |r| ≤ H) →
    ∀ i : ℕ, i < raws.length →
      ∃ y, (emaTraceDouble ema raws)[i]? = some y ∧
        (raws.take (i + 1)).foldl min lo - H / 1125899906842624 ≤ y ∧
        y ≤ (raws.take (i + 1)).foldl max hi + H / 1125899906842624 := by
  induction raws with
  | nil => intro ema lo hi _ _ _ _ _ i hi'; simp at hi'
  | cons r rest ih =>
    intro ema lo hi hloH hhiH helo hehi hraws i hi'
    obtain ⟨hr0, hrH⟩ := abs_le.mp (hraws r (by simp))
    have hstep := emaStepDouble_between H ema r (min lo r) (max hi r) hH
      (le_min hloH hr0) (max_le hhiH hrH) (min_le_right _ _) (le_max_right _ _)
      (le_trans (sub_le_sub_right (min_le_left _ _) _) helo)
      (le_trans hehi (add_le_add_right (le_max_left _ _) _))
    cases i with
    | zero =>
      refine ⟨emaStepDouble ema r, ?_, ?_⟩
      · simp [emaTraceDouble]
      · simpa using hstep
    | succ j =>
      have hj : j < rest.length := by simpa using hi'
      obtain ⟨y, hy, hb⟩ :=
        ih (emaStepDouble ema r) (min lo r) (max hi r) (le_min hloH hr0) (max_le hhiH hrH)
          hstep.1 hstep.2 (fun x hx => hraws x (by simp [hx])) j hj
      refine ⟨y, ?_, ?_⟩
      · simpa [emaTraceDouble] using hy
      · simpa using hb

/-- C4, as stated, fails on the double arithmetic of the code: from the fresh
state, two ticks that both read the double nearest to `0.9` publish that
double and then the next double above it, which exceeds the maximum of the
raw values read. -/
theorem cpuTraceDouble_overshoots :
    rawTraceDouble (Globals.fresh true true)
        [cpuTick (8106479329266893 / 9007199254740992) none,
          cpuTick (8106479329266893 / 9007199254740992) none]
      = [8106479329266893 / 9007199254740992, 8106479329266893 / 9007199254740992] ∧
    cpuTraceDouble (Globals.fresh true true)
        [cpuTick (8106479329266893 / 9007199254740992) none,
          cpuTick (8106479329266893 / 9007199254740992) none]
      = [8106479329266893 / 9007199254740992, 4053239664633447 / 4503599627370496] ∧
    seqMax [8106479329266893 / 9007199254740992, 8106479329266893 / 9007199254740992]
      < 4053239664633447 / 4503599627370496 := by
  have hraw : rawTraceDouble (Globals.fresh true true)
      [cpuTick (8106479329266893 / 9007199254740992) none,
        cpuTick (8106479329266893 / 9007199254740992) none]
      = [8106479329266893 / 9007199254740992, 8106479329266893 / 9007199254740992] := by
    rw [rawTraceDouble_eq_map]
    simp [ReadCpuUsage, Globals.fresh, cpuTick]
  refine ⟨hraw, ?_, ?_⟩
  · rw [cpuTraceDouble_eq_emaTraceDouble, hraw]
    have h1 : emaStepDouble (Globals.fresh true true).g_cpuEMA
        (8106479329266893 / 9007199254740992) = 8106479329266893 / 9007199254740992 := by
      norm_num [emaStepDouble, Globals.fresh]
    simp only [emaTraceDouble, h1, emaStepDouble_nine_tenths]
  · norm_num [seqMax]

/-- C4, amended: in the double arithmetic of the code, feeding raw CPU values
of magnitude at most `H` (with `1 ≤ H ≤ 2^1000`) tick by tick from a state
whose EMA is unset, the value published by each tick lies between the minimum
and the maximum of the raw values read up to and including that tick, up to a
rounding slack of `H * 2^-50` on either side. -/
theorem cpuTraceDouble_within_raw_range (g : Globals) (ticks : List OsReply) (H : ℚ)
    (hunset : g.g_cpuEMA < 0) (hH : 1 ≤ H) (_hmax : H ≤ 2 ^ 1000)
    (hraw : ∀ r ∈ rawTraceDouble g ticks, |r| ≤ H)
    (i : ℕ) (hi : i < ticks.length) :
    ∃ y, (cpuTraceDouble g ticks)[i]? = some y ∧
      seqMin ((rawTraceDouble g ticks).take (i + 1)) - H / 2 ^ 50 ≤ y ∧
      y ≤ seqMax ((rawTraceDouble g ticks).take (i + 1)) + H / 2 ^ 50 := by
  rw [cpuTraceDouble_eq_emaTraceDouble]
  have hlen := rawTraceDouble_length ticks g
  have e50 : (2 : ℚ) ^ 50 = 1125899906842624 := by norm_num
  rw [e50]
  have hpos : (0 : ℚ) ≤ H / 1125899906842624 := by positivity
  generalize rawTraceDouble g ticks = raws at hlen hraw
  cases raws with
  | nil => simp at hlen; omega
  | cons r rest =>
    have hfirst : emaStepDouble g.g_cpuEMA r = r := by simp [emaStepDouble, hunset]
    obtain ⟨hr0, hrH⟩ := abs_le.mp (hraw r (by simp))
    cases i with
    | zero =>
      refine ⟨r, ?_, ?_⟩
      · simp [emaTraceDouble, hfirst]
      · simp only [List.take, seqMin, seqMax, List.foldl_nil]
        constructor <;> linarith
    | succ j =>
      have hj : j < rest.length := by simp at hlen; omega
      obtain ⟨y, hy, hb⟩ := emaTraceDouble_between H hH rest r r r hr0 hrH
        (by linarith) (by linarith) (fun x hx => hraw x (by simp [hx])) j hj
      refine ⟨y, ?_, ?_⟩
      · simpa [emaTraceDouble, hfirst] using hy
      · simpa [seqMin, seqMax] using hb

/-- The hypotheses of `cpuTraceDouble_within_raw_range` hold for the second of
two ticks from the fresh globals that read `90` and `10`, with `H = 100`. -/
theorem cpuTraceDouble_within_raw_range_witness :
    (Globals.fresh true true).g_cpuEMA < 0 ∧ (1 : ℚ) ≤ 100 ∧ (100 : ℚ) ≤ 2 ^ 1000 ∧
    (∀ r ∈ rawTraceDouble (Globals.fresh true true) [cpuTick 90 none, cpuTick 10 none],
      |r| ≤ 100) ∧
    1 < [cpuTick 90 none, cpuTick 10 none].length ∧
    ∃ y, (cpuTraceDouble (Globals.fresh true true)
        [cpuTick 90 none, cpuTick 10 none])[1]? = some y ∧
      seqMin ((rawTraceDouble (Globals.fresh true true)
        [cpuTick 90 none, cpuTick 10 none]).take (1 + 1)) - 100 / 2 ^ 50 ≤ y ∧
      y ≤ seqMax ((rawTraceDouble (Globals.fresh true true)
        [cpuTick 90 none, cpuTick 10 none]).take (1 + 1)) + 100 / 2 ^ 50 :=
  have h1 : (Globals.fresh true true).g_cpuEMA < 0 := by norm_num [Globals.fresh]
  have h2 : (100 : ℚ) ≤ 2 ^ 1000 := by norm_num
  have h3 : ∀ r ∈ rawTraceDouble (Globals.fresh true true)
      [cpuTick 90 none, cpuTick 10 none], |r| ≤ 100 := by
    intro r hr
    rw [rawTraceDouble_eq_map] at hr
    simp only [List.map_cons, List.map_nil, ReadCpuUsage, Globals.fresh, cpuTick,
      List.mem_cons, List.mem_singleton] at hr
    rcases hr with h | h | h
    · rw [h]; norm_num
    · rw [h]; norm_num
    · simp at h
  ⟨h1, by norm_num, h2, h3, by decide,
    cpuTraceDouble_within_raw_range _ _ 100 h1 (by norm_num) h2 h3 1 (by decide)⟩

/-! ## The layout stays inside the range of `int` -/

/-- Bounds on the values computed by the layout, for a client area whose width
and height are non-negative `int`s and a title height between `0` and `2^30`. -/
theorem paintLocals_intervals (w h titleCy : ℤ) (p : PaintLocals)
    (hp : p = paintLocals (clientRect w h) titleCy)
    (hw0 : 0 ≤ w) (hw2 : w ≤ 2147483647) (hh0 : 0 ≤ h) (hh2 : h ≤ 2147483647)
    (ht0 : 0 ≤ titleCy) (ht1 : titleCy ≤ 1073741824) :
    (p.yTop = 16 + titleCy + 8 ∧ p.clientW = w ∧ p.clientH = h ∧
      p.maxH = h - p.yTop - 16 ∧ p.availableH = p.maxH ∧
      p.totalWidth = p.gaugeSize * 2 + 16) ∧
    (-24 ≤ p.maxWPerGauge ∧ 2 * p.maxWPerGauge ≤ w ∧
      1 ≤ p.gaugeSize ∧ p.gaugeSize ≤ 1073741824 ∧ p.totalWidth ≤ 2147483647 ∧
      -18 ≤ w - p.totalWidth) ∧
    (-9 ≤ Int.tdiv (p.clientW - p.totalWidth) 2 ∧
      Int.tdiv (p.clientW - p.totalWidth) 2 ≤ 1073741823 ∧
      16 ≤ p.startX ∧ p.startX ≤ 1073741823 ∧
      p.startX + p.gaugeSize + 16 + p.gaugeSize ≤ 2147483647) ∧
    (-1073741905 ≤ p.availableH - p.gaugeSize ∧
      -1073741824 ≤ Int.tdiv (p.availableH - p.gaugeSize) 2 ∧
      Int.tdiv (p.availableH - p.gaugeSize) 2 ≤ 1073741823 ∧
      -1073741824 ≤ p.yTop + Int.tdiv (p.availableH - p.gaugeSize) 2 ∧
      p.yTop + Int.tdiv (p.availableH - p.gaugeSize) 2 ≤ 2147483647 ∧
      24 ≤ p.startY ∧ p.startY ≤ 2147483647 ∧ p.startY + p.gaugeSize ≤ 2147483647) := by
  obtain ⟨m, sx, sy, ⟨hy, hcw, hch⟩, hmw, ⟨hmh, hah⟩, ⟨-, hm⟩, hgs, htw, hsx', hsx, hsy', hsy⟩ :=
    paintLocals_linear w h titleCy p hp
  obtain ⟨-, -, -, -, -, -, -, hsxe, -, hsye⟩ := paintLocals_eq (clientRect w h) titleCy
  rw [← hp] at hsxe hsye
  have hx := max_linear _ _ _ hsxe
  have hs := max_linear _ _ _ hsye
  have b2 := tdiv_two_bounds (p.clientW - p.totalWidth)
  have b3 := tdiv_two_bounds (p.availableH - p.gaugeSize)
  clear hsxe hsye hsx' hsx hsy' hsy hp
  generalize Int.tdiv (p.clientW - p.totalWidth) 2 = q2 at hx b2 ⊢
  generalize Int.tdiv (p.availableH - p.gaugeSize) 2 = q3 at hs b3 ⊢
  rw [hcw] at b2
  have hpad : pad = 16 := rfl
  rw [hpad] at hx
  have e1 : -24 ≤ p.maxWPerGauge ∧ 2 * p.maxWPerGauge ≤ w ∧
      (2 * p.maxWPerGauge ≤ w - 48 ∨ p.maxWPerGauge ≤ 0) := by
    clear b2 b3 hm hgs hx hs
    omega
  clear hmw
  have e3 : 1 ≤ p.gaugeSize ∧
      (p.gaugeSize = 1 ∨ (p.gaugeSize ≤ p.maxWPerGauge ∧ p.gaugeSize ≤ p.maxH)) := by
    clear b2 b3 hx hs e1
    omega
  clear hm hgs
  have f1 : p.gaugeSize ≤ 1073741824 ∧ p.totalWidth ≤ 2147483647 ∧
      -18 ≤ w - p.totalWidth := by
    clear b2 b3 hx hs
    omega
  have f2 : -9 ≤ q2 ∧ q2 ≤ 1073741823 ∧ 16 ≤ p.startX ∧ p.startX ≤ 1073741823 ∧
      p.startX + p.gaugeSize + 16 + p.gaugeSize ≤ 2147483647 := by
    clear b3 hs
    omega
  clear b2 hx
  have f3 : -1073741905 ≤ p.availableH - p.gaugeSize ∧ -1073741824 ≤ q3 ∧
      q3 ≤ 1073741823 ∧ -1073741824 ≤ p.yTop + q3 ∧ p.yTop + q3 ≤ 2147483647 ∧
      24 ≤ p.startY ∧ p.startY ≤ 2147483647 ∧ p.startY + p.gaugeSize ≤ 2147483647 := by
    clear f2 e1
    omega
  exact ⟨⟨hy, hcw, hch, by rw [hmh, hy], hah, htw⟩,
    ⟨e1.1, e1.2.1, e3.1, f1.1, f1.2.1, f1.2.2⟩, f2, f3⟩

/-- For a client area whose width and height are non-negative `int`s and a
title height between `0` and `2^30`, every integer the layout computes, and
every corner of the two cards, lies in the range of a 32-bit `int`: the
unbounded integers of the embedding never stand for an overflowing value. -/
theorem paintLocals_fit_int32 (g : Globals) (w h titleCy : ℤ)
    (p : PaintLocals) (cpu ram : GaugeDrawing)
    (hp : p = paintLocals (clientRect w h) titleCy)
    (hui : (cpu, ram) = PaintUI g (clientRect w h) titleCy)
    (hw : 0 ≤ w ∧ fitsInt w) (hh : 0 ≤ h ∧ fitsInt h)
    (ht : 0 ≤ titleCy ∧ titleCy ≤ 1073741824) :
    (fitsInt (pad + titleCy) ∧ fitsInt p.yTop ∧ fitsInt p.clientW ∧ fitsInt p.clientH ∧
     fitsInt (p.clientW - pad * 3) ∧ fitsInt p.maxWPerGauge ∧
     fitsInt (p.clientH - p.yTop) ∧ fitsInt p.maxH ∧ fitsInt p.gaugeSize) ∧
    (fitsInt (p.gaugeSize * 2) ∧ fitsInt p.totalWidth ∧
     fitsInt (p.clientW - p.totalWidth) ∧
     fitsInt (Int.tdiv (p.clientW - p.totalWidth) 2) ∧ fitsInt p.startX) ∧
    (fitsInt p.availableH ∧ fitsInt (p.availableH - p.gaugeSize) ∧
     fitsInt (Int.tdiv (p.availableH - p.gaugeSize) 2) ∧
     fitsInt (p.yTop + Int.tdiv (p.availableH - p.gaugeSize) 2) ∧ fitsInt p.startY) ∧
    (fitsInt cpu.card.left ∧ fitsInt cpu.card.top ∧
     fitsInt cpu.card.right ∧ fitsInt cpu.card.bottom ∧
     fitsInt (p.startX + p.gaugeSize) ∧
     fitsInt ram.card.left ∧ fitsInt ram.card.top ∧
     fitsInt ram.card.right ∧ fitsInt ram.card.bottom) := by
  obtain ⟨hc1, hc2⟩ := PaintUI_cards g (clientRect w h) titleCy
  rw [← hui, ← hp] at hc1 hc2
  simp only at hc1 hc2
  rw [hc1, hc2]
  dsimp only
  clear hc1 hc2 hui
  obtain ⟨⟨hy, hcw, hch, hmh, hah, htw⟩, f0, f2, f3⟩ :=
    paintLocals_intervals w h titleCy p hp hw.1 hw.2.2 hh.1 hh.2.2 ht.1 ht.2
  clear hp
  obtain ⟨hw0, hw1, hw2⟩ := hw
  obtain ⟨hh0, hh1, hh2⟩ := hh
  obtain ⟨ht0, ht1⟩ := ht
  generalize Int.tdiv (p.clientW - p.totalWidth) 2 = q2 at f2 ⊢
  generalize Int.tdiv (p.availableH - p.gaugeSize) 2 = q3 at f3 ⊢
  have hpad : pad = 16 := rfl
  rw [hpad]
  unfold fitsInt
  refine ⟨⟨?_, ?_, ?_, ?_, ?_, ?_, ?_, ?_, ?_⟩, ⟨?_, ?_, ?_, ?_, ?_⟩, ⟨?_, ?_, ?_, ?_, ?_⟩,
    ⟨?_, ?_, ?_, ?_, ?_, ?_, ?_, ?_, ?_⟩⟩ <;> constructor <;> omega

end SysMonTray
